import Mathlib

/-!
# Formal model of the `at` AT-command codec and chat session layer

Shallow embedding of `at/at.py` (grammar codec) and `at/chat.py` (session
layer).  Python strings are modelled as `List Char`; Python exceptions as
`Except` error values.  Each definition mirrors the corresponding Python
function; deviations forced by the modelling are noted in the doc comments.
-/

namespace ATSpec

/-! ## Python string primitives on `List Char` -/

/-- The whitespace characters stripped by Python `str.strip()` (ASCII part;
the unicode extras are irrelevant to this codec). -/
def pyIsSpace (c : Char) : Bool :=
  c = ' ' || c = '\t' || c = '\n' || c = '\x0d' || c = '\x0b' || c = '\x0c'

/-- Remove the trailing run of characters satisfying `p`. -/
def dropTrailing (p : Char → Bool) (s : List Char) : List Char :=
  (s.reverse.dropWhile p).reverse

/-- Python `str.strip(chars)` generalised over a character predicate:
remove the leading and trailing runs of characters satisfying `p`. -/
def pyStripGen (p : Char → Bool) (s : List Char) : List Char :=
  dropTrailing p (s.dropWhile p)

/-- Python `str.strip()` (whitespace). -/
def pyStrip (s : List Char) : List Char := pyStripGen pyIsSpace s

/-- Python `str.strip(set)`: strip any characters of `set` from both ends. -/
def pyStripSet (set : List Char) (s : List Char) : List Char :=
  pyStripGen (fun c => set.contains c) s

/-- Python `str.lstrip(set)`. -/
def pyLstripSet (set : List Char) (s : List Char) : List Char :=
  s.dropWhile (fun c => set.contains c)

/-- Python `str.rstrip(set)`. -/
def pyRstripSet (set : List Char) (s : List Char) : List Char :=
  dropTrailing (fun c => set.contains c) s

/-- Python `str.upper()` (ASCII; this codec only meets ASCII text). -/
def pyUpper (s : List Char) : List Char := s.map Char.toUpper

/-- Python `str.split(c)` for a single-character separator: split at every
occurrence of `c`; `"".split(c) = [""]`, and the result is never empty. -/
def splitCh (c : Char) : List Char → List (List Char)
  | [] => [[]]
  | x :: xs =>
    if x = c then [] :: splitCh c xs
    else
      match splitCh c xs with
      | t :: ts => (x :: t) :: ts
      | [] => [[x]]

/-- Python `str.join` of a list of strings with separator `sep`
(`List.intercalate`, re-defined with equations convenient for induction). -/
def interL (sep : List Char) : List (List Char) → List Char
  | [] => []
  | [x] => x
  | x :: y :: xs => x ++ sep ++ interL sep (y :: xs)

/-- Python `s.endswith(suf)`. -/
def endsWithL (s suf : List Char) : Bool :=
  suf.reverse.isPrefixOf s.reverse

/-- Python substring test `sub in s`. -/
def isSubstrOf (sub : List Char) : List Char → Bool
  | [] => sub.isEmpty
  | c :: cs => sub.isPrefixOf (c :: cs) || isSubstrOf sub cs

instance {ε α : Type} [DecidableEq ε] [DecidableEq α] : DecidableEq (Except ε α) :=
  fun x y =>
    match x, y with
    | .ok a, .ok b =>
      if h : a = b then .isTrue (by rw [h]) else .isFalse (fun hh => h (Except.ok.inj hh))
    | .error a, .error b =>
      if h : a = b then .isTrue (by rw [h]) else .isFalse (fun hh => h (Except.error.inj hh))
    | .ok _, .error _ => .isFalse (fun hh => Except.noConfusion hh)
    | .error _, .ok _ => .isFalse (fun hh => Except.noConfusion hh)

/-- `String` literal to `List Char` (shorthand for writing the model's
concrete inputs). -/
def toL (s : String) : List Char := s.toList

/-! ## Python `int` printing and parsing -/

/-- The decimal digit character for `d < 10`. -/
def digitChar (d : Nat) : Char := Char.ofNat (48 + d)

/-- Decimal expansion of a positive `Nat`, most significant digit first.
`fuel` bounds the recursion (any `fuel ≥ n` is exact). -/
def natToCharsAux : Nat → Nat → List Char
  | 0, _ => []
  | _ + 1, 0 => []
  | fuel + 1, n + 1 =>
    natToCharsAux fuel ((n + 1) / 10) ++ [digitChar ((n + 1) % 10)]

/-- Python `str(n)` for `n : Nat`. -/
def natToChars (n : Nat) : List Char :=
  if n = 0 then ['0'] else natToCharsAux n n

/-- Python `str(i)` for `i : int`. -/
def intToChars (i : Int) : List Char :=
  if i < 0 then '-' :: natToChars i.natAbs else natToChars i.toNat

/-- Numeric value of a decimal digit character. -/
def charDigitVal (c : Char) : Option Nat :=
  if c.isDigit then some (c.toNat - 48) else none

/-- Accumulating decimal value of a digit string; `none` on a non-digit. -/
def digitsValAux : List Char → Nat → Option Nat
  | [], acc => some acc
  | c :: cs, acc =>
    match charDigitVal c with
    | some d => digitsValAux cs (acc * 10 + d)
    | none => none

/-- Value of a non-empty all-digit string. -/
def digitsVal (cs : List Char) : Option Nat :=
  if cs = [] then none else digitsValAux cs 0

/-- Python `int(s)`: optional surrounding whitespace, one optional sign,
then a non-empty digit string.  (Digit-group underscores and non-ASCII
digits, which this codec never meets, are not modelled.) -/
def pyParseInt (s : List Char) : Option Int :=
  let t := pyStrip s
  if t.head? = some '+' then (digitsVal t.tail).map (fun n => (n : Int))
  else if t.head? = some '-' then (digitsVal t.tail).map (fun n => -(n : Int))
  else (digitsVal t).map (fun n => (n : Int))

/-! ## Data model of `at/at.py`

Per the module docstring of `at.py` (lines 10-13), a parameter value is
`None`, `int`, `str` or a single-nested list of those; `_parse_params` can
only ever produce this shape (atoms from `_parse_param`, arrays appended at
top level only). -/

/-- A scalar parameter value: Python `None`, `int` or `str`. -/
inductive Atom
  | null
  | int (i : Int)
  | str (s : List Char)
deriving DecidableEq, Repr

/-- A parameter: an atom or a single-nested array of atoms. -/
inductive Param
  | atom (a : Atom)
  | arr (xs : List Atom)
deriving DecidableEq, Repr

/-- Python exceptions escaping the codec: `ATError` (the library's own
`CodecError`) versus any other exception (`ValueError` from tuple
unpacking, `TypeError`, ...). -/
inductive PErr
  | atError (msg : String)
  | pyError (msg : String)
deriving DecidableEq, Repr

/-- The `'type'` value of a command dict. -/
inductive CmdType
  | SET
  | READ
  | TEST
deriving DecidableEq, Repr

/-- A command dict `{'cmd': _, 'type': _, 'params': _}`. -/
structure CmdDict where
  cmd : List Char
  type : CmdType
  params : List Param
deriving DecidableEq, Repr

/-- A response dict `{'response': _, 'type': 'RESPONSE', 'error': _,
'params': _}` (the constant `'type'` key is carried by the variant). -/
structure RspDict where
  response : Option (List Char)
  error : Bool
  params : List Param
deriving DecidableEq, Repr

/-- Result of `parse_string`: a single command dict, a list of dicts
(compound command), or a response dict. -/
inductive ParseResult
  | cmd (c : CmdDict)
  | cmds (cs : List CmdDict)
  | rsp (r : RspDict)
deriving DecidableEq, Repr

/-! ## `at/at.py` codec functions -/

/-- `at.py _parse_param` (lines 89-101): empty string is `None`; a leading
`"` means a string with all boundary quotes stripped; otherwise try `int`,
falling back to the bare string. -/
def parse_param (s : List Char) : Atom :=
  if s = [] then .null
  else if s.head? = some '"' then .str (pyStripSet ['"'] s)
  else
    match pyParseInt s with
    | some i => .int i
    | none => .str s

/-- `at.py _encode_param` (lines 103-110): `None` encodes as one space,
strings are wrapped in double quotes verbatim, ints print in decimal. -/
def encode_param (a : Atom) : List Char :=
  match a with
  | .null => [' ']
  | .str s => '"' :: s ++ ['"']
  | .int i => intToChars i

/-- One element of `_encode_params`: scalars via `_encode_param`, an array
recursively joined with `','` and wrapped in parentheses (lines 141-150). -/
def encodeParamPiece (p : Param) : List Char :=
  match p with
  | .atom a => encode_param a
  | .arr xs => '(' :: interL [','] (xs.map encode_param) ++ [')']

/-- `at.py _encode_params` (lines 141-150). -/
def encode_params (ps : List Param) : List Char :=
  interL [','] (ps.map encodeParamPiece)

/-- The loop body of `at.py _parse_params` (lines 113-138), one comma-token
at a time.  State: `res` is `result`, `arr` is `array` (`none` = Python
`None`).  Mirrors the Python control flow exactly, including the quirk that
a token ending in `')'` with no open array appends the parsed value and
then appends Python `None` (`result.append(array)` with `array is None`). -/
def parseParamsLoop : List (List Char) → List Param → Option (List Atom) →
    Except PErr (List Param)
  | [], res, _ => .ok res
  | t :: ts, res, arr =>
    let s0 := pyStrip t
    if s0.head? = some '(' ∧ arr.isSome then
      .error (.atError "Nested array encountered")
    else
      let arr1 := if s0.head? = some '(' then some [] else arr
      let s1 := if s0.head? = some '(' then s0.tail else s0
      let eoa := s1.getLast? = some ')'
      let s2 := if eoa then s1.dropLast else s1
      match arr1 with
      | some a =>
        if eoa then
          parseParamsLoop ts (res ++ [Param.arr (a ++ [parse_param s2])]) none
        else parseParamsLoop ts res (some (a ++ [parse_param s2]))
      | none =>
        if eoa then
          parseParamsLoop ts
            (res ++ [Param.atom (parse_param s2), Param.atom Atom.null]) none
        else parseParamsLoop ts (res ++ [Param.atom (parse_param s2)]) arr

/-- `at.py _parse_params` (lines 113-138). -/
def parse_params (s : List Char) : Except PErr (List Param) :=
  parseParamsLoop (splitCh ',' s) [] none

/-- The Python unpacking error message for `a, b = xs` when
`len(xs) ≠ 2` (a `ValueError`, not an `ATError`). -/
def unpackMsg (n : Nat) : String :=
  if n < 2 then "not enough values to unpack" else "too many values to unpack"

/-- One statement of the SET/compound branch of `parse_string`
(lines 196-204): split at `'='` (every occurrence — `str.split` with no
maxsplit, so two `'='` raise `ValueError`), `lstrip('AT')` the name. -/
def parse_stmt (stmt : List Char) : Except PErr CmdDict :=
  if stmt.contains '=' then
    match splitCh '=' stmt with
    | [cmd, params] =>
      match parse_params params with
      | .ok ps => .ok ⟨pyLstripSet ['A', 'T'] cmd, .SET, ps⟩
      | .error e => .error e
    | parts => .error (.pyError (unpackMsg parts.length))
  else .ok ⟨pyLstripSet ['A', 'T'] stmt, .SET, []⟩

/-- Sequential parse of the `';'`-separated statements (lines 195-204). -/
def parseStmts : List (List Char) → Except PErr (List CmdDict)
  | [] => .ok []
  | s :: ss =>
    match parse_stmt s with
    | .error e => .error e
    | .ok c =>
      match parseStmts ss with
      | .error e => .error e
      | .ok cs => .ok (c :: cs)

/-- `at.py parse_string` (lines 153-219), branch for branch:
sentinels `OK`/`ERROR` on the stripped upper-cased line; `'+'`/`'%'`
responses split at **every** `':'` (unpacking raises `ValueError` unless
the line has exactly one); `=?`/`?` suffix commands; `AT`-prefixed
SET/compound commands; free-text fallthrough with the two quote cleanups. -/
def parse_string (cmd_str : List Char) : Except PErr ParseResult :=
  if cmd_str = [] then .error (.atError "No str to parse.")
  else
    let temp := pyUpper (pyStrip cmd_str)
    if (toL "OK").isPrefixOf temp then
      if temp.length ≠ 2 then .error (.atError "Unexpected trailing data after OK")
      else .ok (.rsp ⟨some (toL "OK"), false, []⟩)
    else if (toL "ERROR").isPrefixOf temp then
      if temp.length ≠ 5 then .error (.atError "Unexpected trailing data after ERROR")
      else .ok (.rsp ⟨some (toL "ERROR"), true, []⟩)
    else if temp.head? = some '+' ∨ temp.head? = some '%' then
      match splitCh ':' cmd_str with
      | [response, params] =>
        match parse_params params with
        | .error e => .error e
        | .ok ps => .ok (.rsp ⟨some response, isSubstrOf (toL "ERROR") response, ps⟩)
      | parts => .error (.pyError (unpackMsg parts.length))
    else if endsWithL cmd_str (toL "=?") then
      .ok (.cmd ⟨pyRstripSet ['=', '?'] (pyLstripSet ['A', 'T'] (pyUpper cmd_str)), .TEST, []⟩)
    else if endsWithL cmd_str (toL "?") then
      .ok (.cmd ⟨pyRstripSet ['=', '?'] (pyLstripSet ['A', 'T'] (pyUpper cmd_str)), .READ, []⟩)
    else if (toL "AT").isPrefixOf temp then
      match parseStmts (splitCh ';' cmd_str) with
      | .error e => .error e
      | .ok [c] => .ok (.cmd c)
      | .ok cs => .ok (.cmds cs)
    else
      let c1 := if pyStrip cmd_str = ['"'] then ([] : List Char)
                else if endsWithL cmd_str (toL "\"\x0d\n") then
                  pyStripSet (toL "\"\x0d\n") cmd_str
                else cmd_str
      .ok (.rsp ⟨none, false, [.atom (.str c1)]⟩)

/-- Encoding of one command dict inside `encode_command` (lines 229-240):
name, then `'='` + params for a SET with non-empty params, `'?'` for READ,
`"=?"` for TEST. -/
def encodeOne (c : CmdDict) : List Char :=
  c.cmd ++ (match c.type with
    | .SET => if c.params = [] then [] else '=' :: encode_params c.params
    | .READ => ['?']
    | .TEST => ['=', '?'])

/-- `at.py encode_command` (lines 222-245) on a (non-empty) list of command
dicts: one leading `AT`, commands joined with `';'`.  (Python raises
`IndexError` on an empty input and `ATError` on a non-command `'type'`;
neither shape is representable here.) -/
def encode_command (cs : List CmdDict) : List Char :=
  toL "AT" ++ interL [';'] (cs.map encodeOne)

/-! ## Data model of `at/chat.py`

Two threads share two queues.  The background thread (`ChatThread.run`)
owns the serial port; a transport-level fault (`FileNotFoundError` or
`serial.SerialException`) is caught, pushed onto the inbound queue as a
data item, and the loop stops.  The caller side (`Chat`) is modelled as
pure state transformers; the inbound items a blocking read would receive
are supplied as an explicit schedule. -/

/-- The transport-level faults caught by `ChatThread.run` (lines 167-170). -/
inductive Fault
  | fileNotFound
  | serialExc
deriving DecidableEq, Repr

/-- An item of the inbound (`rx`) queue: a decoded line or a fault object
(`ChatThread.run` pushes the exception itself as data). -/
inductive RxItem
  | line (s : List Char)
  | exc (f : Fault)
deriving DecidableEq, Repr

/-- One iteration's serial I/O outcome in `ChatThread.run`'s loop:
a `readline` result (possibly empty on a poll timeout), or a fault raised
by the iteration's serial read/write. -/
inductive IterOutcome
  | ok (line : List Char)
  | err (f : Fault)
deriving DecidableEq, Repr

/-- `str(exception)` for a fault, as seen by `ChatError(str(item))`. -/
def faultMsg (f : Fault) : String :=
  match f with
  | .fileNotFound => "FileNotFoundError"
  | .serialExc => "SerialException"

/-- Python exceptions escaping the `Chat` methods: a `ChatError` with its
message, a fault re-raised verbatim by `_raise_thread_errors`, the
`queue.Empty` raised by `Queue.get(True, timeout)` on timeout, a codec
error propagating out of `parse_string`, or the `TypeError` from indexing
a list result with a string key. -/
inductive ChatErr
  | chatError (msg : String)
  | raisedFault (f : Fault)
  | queueEmpty
  | parseErr (e : PErr)
  | typeError
deriving DecidableEq, Repr

/-- A received line equal to a single null byte is discarded (line 165). -/
def NULLB : List Char := ['\x00']

/-- Keep-condition of `ChatThread.run` line 165: non-empty and not the
single null byte. -/
def keepLine (l : List Char) : Bool := decide (l ≠ [] ∧ l ≠ NULLB)

/-- The read loop of `ChatThread.run` (lines 160-166) over a schedule of
iteration outcomes, accumulating the inbound queue: a kept line is pushed;
a fault stops the loop (the remaining outcomes are never seen) and pushes
the fault itself as data (lines 167-170).  The outbound-queue drain is
represented only through the possibility that an iteration faults. -/
def runLoop : List IterOutcome → List RxItem → List RxItem
  | [], q => q
  | .ok l :: es, q => runLoop es (if keepLine l then q ++ [.line l] else q)
  | .err f :: _, q => q ++ [.exc f]

/-- Final observable state of the background thread. -/
structure ThreadFinal where
  rxQ : List RxItem
  portReleased : Bool
  closed : Bool
deriving DecidableEq, Repr

/-- `ChatThread.run` (lines 154-172) from thread start to thread exit.
`openRes = some f` models `serial.Serial(...)` itself raising `f` (the
port is opened *inside the thread*, line 159): the fault goes onto the
inbound queue and the loop never runs.  In every exit path the `with`
block has released the port and the `finally` has set the closed flag. -/
def runThread (openRes : Option Fault) (events : List IterOutcome) : ThreadFinal :=
  match openRes with
  | some f => ⟨[.exc f], true, true⟩
  | none => ⟨runLoop events [], true, true⟩

/-- Caller-side state of a `Chat` object. -/
structure ChatState where
  closed : Bool
  threadClosed : Bool
  rxQ : List RxItem
  txQ : List (List Char)
deriving DecidableEq, Repr

/-- Scan of `_raise_thread_errors`'s drain loop (lines 50-53): pop items,
discarding lines, until the first exception item. -/
def firstExc : List RxItem → Option (Fault × List RxItem)
  | [] => none
  | .line _ :: rest => firstExc rest
  | .exc f :: rest => some (f, rest)

/-- `Chat._raise_thread_errors` (lines 46-54): drain the inbound queue,
re-raising the first exception found verbatim; if none is found the whole
queue has been discarded, `self.close()` runs, and the method returns. -/
def raiseThreadErrors (st : ChatState) : Except ChatErr Unit × ChatState :=
  match firstExc st.rxQ with
  | some (f, rest) => (.error (.raisedFault f), { st with rxQ := rest })
  | none => (.ok (), { st with rxQ := [], closed := true, threadClosed := true })

/-- Blocking `Queue.get(block, timeout_s)` plus the item dispatch of
`Chat._read` lines 70-74: take the queue head, else the (optional) item
arriving within the timeout, else raise `queue.Empty`.  A string item is
returned; anything else raises `ChatError(str(item))`. -/
def readGet (st : ChatState) (arrival : Option RxItem) :
    Except ChatErr (List Char) × ChatState :=
  match st.rxQ with
  | it :: rest =>
    match it with
    | .line s => (.ok s, { st with rxQ := rest })
    | .exc f => (.error (.chatError (faultMsg f)), { st with rxQ := rest })
  | [] =>
    match arrival with
    | none => (.error .queueEmpty, st)
    | some (.line s) => (.ok s, st)
    | some (.exc f) => (.error (.chatError (faultMsg f)), st)

/-- `Chat._read` (lines 56-74) in blocking mode (the only mode used by
`send_cmd`). -/
def chatRead (st : ChatState) (arrival : Option RxItem) :
    Except ChatErr (List Char) × ChatState :=
  if st.closed then (.error (.chatError "Port is closed."), st)
  else if st.threadClosed then
    if st.rxQ = [] then
      (.error (.chatError "Thread closed unexpectedly."),
       { st with closed := true, threadClosed := true })
    else
      match raiseThreadErrors st with
      | (.error e, st1) => (.error e, st1)
      | (.ok _, st1) => readGet st1 arrival
  else readGet st arrival

/-- `Chat._write` (lines 76-86).  Note the Python quirk: when the thread
is closed but the queue held no exception, `_raise_thread_errors` returns
normally (after closing the session) and the item is still enqueued. -/
def chatWrite (st : ChatState) (s : List Char) : Except ChatErr Unit × ChatState :=
  if st.closed then (.error (.chatError "Port is closed."), st)
  else if st.threadClosed then
    if st.rxQ = [] then
      (.error (.chatError "Thread closed unexpectedly."),
       { st with closed := true, threadClosed := true })
    else
      match raiseThreadErrors st with
      | (.error e, st1) => (.error e, st1)
      | (.ok _, st1) => (.ok (), { st1 with txQ := st1.txQ ++ [s] })
  else (.ok (), { st with txQ := st.txQ ++ [s] })

/-- `Chat.close` (lines 114-119): a second close raises; otherwise the
closed flag is set and the thread is told to stop (`ChatThread.close`
sets the thread's own closed flag, line 174-177). -/
def chatClose (st : ChatState) : Except ChatErr Unit × ChatState :=
  if st.closed then (.error (.chatError "Port is already closed."), st)
  else (.ok (), { st with closed := true, threadClosed := true })

/-- The `cmd` argument of `send_cmd`: a wire string or a command dict. -/
inductive CmdInput
  | ofStr (s : List Char)
  | ofDict (c : CmdDict)
deriving DecidableEq, Repr

/-- Lines 97-101 of `send_cmd`: a string is written as-is, a dict is
encoded first. -/
def encodeInput (cmd : CmdInput) : List Char :=
  match cmd with
  | .ofStr s => s
  | .ofDict c => encode_command [c]

/-- The wait loop of `Chat.send_cmd` (lines 102-112) over the stream of
inbound items that arrive before the caller's deadline (the background
thread is taken to stay alive for the duration of the call; its death is
modelled in `chatRead`/`chatWrite`).  When the stream is exhausted the
blocking `Queue.get` times out, which raises `queue.Empty` — the
`ChatError('Command timed out ...')` branch is reachable only for a falsy
line, which the thread never enqueues.  Returns (result, accumulated
intermediate responses, unconsumed stream). -/
def sendCmdLoop : List RxItem → List RspDict →
    Except ChatErr (RspDict × List RspDict) × List RspDict × List RxItem
  | [], acc => (.error .queueEmpty, acc, [])
  | it :: rest, acc =>
    match it with
    | .exc f => (.error (.chatError (faultMsg f)), acc, rest)
    | .line s =>
      if s = [] then (.error (.chatError "Command timed out"), acc, rest)
      else
        match parse_string s with
        | .error e => (.error (.parseErr e), acc, rest)
        | .ok (.cmds _) => (.error .typeError, acc, rest)
        | .ok (.cmd _) => sendCmdLoop rest acc
        | .ok (.rsp r) =>
          if r.response = some (toL "OK") ∨ r.error = true then
            (.ok (r, acc), acc, rest)
          else sendCmdLoop rest (acc ++ [r])

/-- `Chat.send_cmd` (lines 88-112): refuse if closed (before any transport
interaction), write the (possibly encoded) command, then wait for a
terminal response (`response == 'OK'` or `error` true), accumulating the
non-terminal responses in arrival order. -/
def send_cmd (st : ChatState) (cmd : CmdInput) (sched : List RxItem) :
    Except ChatErr (RspDict × List RspDict) × ChatState :=
  if st.closed then (.error (.chatError "Port is closed."), st)
  else
    match chatWrite st (encodeInput cmd) with
    | (.error e, st1) => (.error e, st1)
    | (.ok _, st1) =>
      match sendCmdLoop (st1.rxQ ++ sched) [] with
      | (res, _, remaining) => (res, { st1 with rxQ := remaining })

/-- Result of constructing a `Chat` (its `__init__`, lines 38-44). -/
structure ChatInitResult where
  threadStarted : Bool
  state : ChatState
deriving DecidableEq, Repr

/-- `Chat.__init__` (lines 38-44): create the queues, create and **start**
the background thread, and return — the serial port is opened inside
`ChatThread.run` (line 159), so a transport-acquisition failure cannot
raise here; the constructor always succeeds.  The state shown is the one
observed once the thread has processed `events` (or died opening the
port). -/
def chatInit (openRes : Option Fault) (events : List IterOutcome) :
    Except ChatErr ChatInitResult :=
  let tf := runThread openRes events
  .ok ⟨true, ⟨false, tf.closed, tf.rxQ, []⟩⟩

/-! ## Canonical command values (the encode-image subset for claim C1)

`encode_command` is not injective on everything `parse_string` can return
(bare text re-quotes, `None` gains a space, ...), so the round-trip law is
stated on *canonical* values: the shapes `encode_command` itself emits and
`parse_string` maps back identically. -/

/-- A character allowed in a canonical command name: upper-case stable,
not whitespace, and none of the separator/structure characters. -/
def CanonNameChar (c : Char) : Prop :=
  c.toUpper = c ∧ pyIsSpace c = false ∧
  c ∉ (['=', '?', ';', ',', ':', '(', ')', '"'] : List Char)

/-- A canonical command name: non-empty, starting with `'+'` or `'%'`
(so `lstrip('AT')` stops at it), all characters canonical. -/
def CanonName (nm : List Char) : Prop :=
  nm ≠ [] ∧ (nm.head? = some '+' ∨ nm.head? = some '%') ∧ ∀ c ∈ nm, CanonNameChar c

instance (c : Char) : Decidable (CanonNameChar c) := by
  unfold CanonNameChar
  infer_instance

instance (nm : List Char) : Decidable (CanonName nm) := by
  unfold CanonName
  infer_instance

/-- Canonical text parameter content: no quote (would be eaten by
`strip('"')`), no comma/semicolon/equals (separators). -/
def CanonText (s : List Char) : Prop :=
  ∀ c ∈ s, c ≠ '"' ∧ c ≠ ',' ∧ c ≠ ';' ∧ c ≠ '='

/-- A canonical top-level scalar parameter. -/
def CanonAtom : Atom → Prop
  | .null => True
  | .int _ => True
  | .str s => CanonText s

/-- A canonical array element (a bare `None` inside an array does not
survive the round trip, so arrays hold only ints and canonical text). -/
def ArrAtom : Atom → Prop
  | .null => False
  | .int _ => True
  | .str s => CanonText s

/-- A canonical parameter. -/
def CanonParam : Param → Prop
  | .atom a => CanonAtom a
  | .arr xs => xs ≠ [] ∧ ∀ x ∈ xs, ArrAtom x

/-- A canonical SET command. -/
def CanonSet (c : CmdDict) : Prop :=
  CanonName c.cmd ∧ c.type = .SET ∧ ∀ p ∈ c.params, CanonParam p

/-- A canonical single command: a canonical SET, or a READ/TEST with empty
params (their params are not transmitted, and compounds cannot carry
them). -/
def CanonSingle (c : CmdDict) : Prop :=
  CanonName c.cmd ∧
  ((c.type = .SET ∧ ∀ p ∈ c.params, CanonParam p) ∨
   ((c.type = .READ ∨ c.type = .TEST) ∧ c.params = []))

/-- The comma-tokens an encoded array contributes after the split on
`','`: middle and last element tokens (the last carries the `')'`). -/
def arrMidToks : List Atom → List (List Char)
  | [] => []
  | [x] => [encode_param x ++ [')']]
  | x :: xs => encode_param x :: arrMidToks xs

/-- All comma-tokens of an encoded array (the first carries the `'('`). -/
def arrToks : List Atom → List (List Char)
  | [] => [['('] ++ [')']]
  | [x] => [['('] ++ encode_param x ++ [')']]
  | x :: xs => (['('] ++ encode_param x) :: arrMidToks xs

/-- The comma-tokens an encoded parameter contributes. -/
def paramToks : Param → List (List Char)
  | .atom a => [encode_param a]
  | .arr xs => arrToks xs

end ATSpec

/-! Quick executable sanity checks of the embedding against
`test/tests.py` vectors. -/

namespace ATSpec

example : parse_string (toL "AT+CEMODE=0") =
    .ok (.cmd ⟨toL "+CEMODE", .SET, [.atom (.int 0)]⟩) := by decide
example : encode_command [⟨toL "+CEMODE", .SET, [.atom (.int 0)]⟩] =
    toL "AT+CEMODE=0" := by decide
example : parse_string (toL "OK") = .ok (.rsp ⟨some (toL "OK"), false, []⟩) := by decide
example : parse_string (toL "ERROR") = .ok (.rsp ⟨some (toL "ERROR"), true, []⟩) := by decide
example : parse_string (toL "+CLCK: (\"SC\")") =
    .ok (.rsp ⟨some (toL "+CLCK"), false, [.arr [.str (toL "SC")]]⟩) := by decide
example : parse_string (toL "+CMS ERROR: 128") =
    .ok (.rsp ⟨some (toL "+CMS ERROR"), true, [.atom (.int 128)]⟩) := by decide
example : parse_string (toL "+CNUM: ,\"+1234567891234\",145") =
    .ok (.rsp ⟨some (toL "+CNUM"), false,
      [.atom .null, .atom (.str (toL "+1234567891234")), .atom (.int 145)]⟩) := by decide
example : parse_string (toL "AT+CFUN?") =
    .ok (.cmd ⟨toL "+CFUN", .READ, []⟩) := by decide
example : parse_string (toL "AT+CGEREP=?") =
    .ok (.cmd ⟨toL "+CGEREP", .TEST, []⟩) := by decide
example : parse_string (toL "AT%XSUDO=7,\"c2lnbmF0dXJl\";%CMNG=1") =
    .ok (.cmds [⟨toL "%XSUDO", .SET, [.atom (.int 7), .atom (.str (toL "c2lnbmF0dXJl"))]⟩,
                ⟨toL "%CMNG", .SET, [.atom (.int 1)]⟩]) := by decide
example : encode_command
    [⟨toL "%XSUDO", .SET, [.atom (.int 7), .atom (.str (toL "c2lnbmF0dXJl"))]⟩,
     ⟨toL "%CMNG", .SET, [.atom (.int 1)]⟩] =
    toL "AT%XSUDO=7,\"c2lnbmF0dXJl\";%CMNG=1" := by decide
example : parse_string (toL "AT%FOO=7,\"c2lnbmF0dXJl\";+BAR=(1,2,3)") =
    .ok (.cmds [⟨toL "%FOO", .SET, [.atom (.int 7), .atom (.str (toL "c2lnbmF0dXJl"))]⟩,
                ⟨toL "+BAR", .SET, [.arr [.int 1, .int 2, .int 3]]⟩]) := by decide

/-! ## Basic lemmas: splitting, joining, stripping -/

theorem splitCh_ne_nil (c : Char) (s : List Char) : splitCh c s ≠ [] := by
  cases s with
  | nil => simp [splitCh]
  | cons x xs =>
    simp only [splitCh]
    split
    · simp
    · cases hs : splitCh c xs with
      | nil => simp
      | cons t ts => simp

theorem splitCh_of_not_mem (c : Char) (s : List Char) (h : c ∉ s) :
    splitCh c s = [s] := by
  induction s with
  | nil => rfl
  | cons x xs ih =>
    have hx : ¬(x = c) := fun hc => h (hc ▸ List.mem_cons_self x xs)
    have hxs : c ∉ xs := fun hc => h (List.mem_cons_of_mem x hc)
    simp only [splitCh, if_neg hx, ih hxs]

theorem splitCh_append_cons (c : Char) (A B : List Char) (hA : c ∉ A) :
    splitCh c (A ++ c :: B) = A :: splitCh c B := by
  induction A with
  | nil => simp [splitCh]
  | cons a A ih =>
    have ha : ¬(a = c) := fun hc => hA (hc ▸ List.mem_cons_self a A)
    have hA' : c ∉ A := fun hc => hA (List.mem_cons_of_mem a hc)
    simp only [List.cons_append, splitCh, if_neg ha]
    rw [show A.append (c :: B) = A ++ c :: B from rfl, ih hA']

theorem interL_cons (sep x : List Char) (xs : List (List Char)) (h : xs ≠ []) :
    interL sep (x :: xs) = x ++ sep ++ interL sep xs := by
  cases xs with
  | nil => exact absurd rfl h
  | cons y ys => rfl

theorem splitCh_interL (c : Char) :
    ∀ toks : List (List Char), toks ≠ [] → (∀ t ∈ toks, c ∉ t) →
      splitCh c (interL [c] toks) = toks := by
  intro toks
  induction toks with
  | nil => intro h; exact absurd rfl h
  | cons t ts ih =>
    intro _ hmem
    cases ts with
    | nil => exact splitCh_of_not_mem c t (hmem t (List.mem_cons_self t []))
    | cons t2 ts' =>
      have h1 : interL [c] (t :: t2 :: ts') = t ++ c :: interL [c] (t2 :: ts') := by
        rw [interL_cons [c] t (t2 :: ts') (by simp)]
        simp
      rw [h1, splitCh_append_cons c t _ (hmem t (List.mem_cons_self t _)),
        ih (by simp) (fun x hx => hmem x (List.mem_cons_of_mem t hx))]

theorem dropWhile_cons_of_neg (p : Char → Bool) (x : Char) (xs : List Char)
    (h : p x = false) : (x :: xs).dropWhile p = x :: xs := by
  simp [List.dropWhile_cons, h]

theorem dropWhile_eq_self_of_head (p : Char → Bool) (s : List Char)
    (h : ∀ a, s.head? = some a → p a = false) : s.dropWhile p = s := by
  cases s with
  | nil => rfl
  | cons x xs => exact dropWhile_cons_of_neg p x xs (h x rfl)

theorem dropWhile_eq_self_of_all (p : Char → Bool) (s : List Char)
    (h : ∀ c ∈ s, p c = false) : s.dropWhile p = s :=
  dropWhile_eq_self_of_head p s (fun a ha => h a (List.mem_of_mem_head? ha))

theorem dropWhile_append_last (p : Char → Bool) (a : Char) (h : p a = false) :
    ∀ R : List Char, (R ++ [a]).dropWhile p = R.dropWhile p ++ [a] := by
  intro R
  induction R with
  | nil => simp [List.dropWhile_cons, h]
  | cons r R ih =>
    by_cases hr : p r = true
    · simp [List.dropWhile_cons, hr, ih]
    · simp [List.dropWhile_cons, hr]

theorem dropTrailing_cons (p : Char → Bool) (a : Char) (xs : List Char)
    (h : p a = false) : dropTrailing p (a :: xs) = a :: dropTrailing p xs := by
  unfold dropTrailing
  rw [List.reverse_cons, dropWhile_append_last p a h]
  simp

theorem dropTrailing_eq_self (p : Char → Bool) (s : List Char)
    (h : ∀ a, s.getLast? = some a → p a = false) : dropTrailing p s = s := by
  unfold dropTrailing
  rw [dropWhile_eq_self_of_head p s.reverse
    (fun a ha => h a (by rwa [List.head?_reverse] at ha))]
  exact s.reverse_reverse

theorem pyStripGen_eq_self (p : Char → Bool) (s : List Char)
    (hh : ∀ a, s.head? = some a → p a = false)
    (hl : ∀ a, s.getLast? = some a → p a = false) : pyStripGen p s = s := by
  unfold pyStripGen
  rw [dropWhile_eq_self_of_head p s hh, dropTrailing_eq_self p s hl]

theorem pyStripGen_eq_self_of_all (p : Char → Bool) (s : List Char)
    (h : ∀ c ∈ s, p c = false) : pyStripGen p s = s :=
  pyStripGen_eq_self p s (fun a ha => h a (List.mem_of_mem_head? ha))
    (fun a ha => h a (List.mem_of_mem_getLast? ha))

theorem isPrefixOf_iff_exists (p : List Char) :
    ∀ s : List Char, p.isPrefixOf s = true ↔ ∃ t, s = p ++ t := by
  induction p with
  | nil => intro s; simp [List.isPrefixOf]
  | cons a p ih =>
    intro s
    cases s with
    | nil => simp [List.isPrefixOf]
    | cons b s =>
      simp only [List.isPrefixOf, Bool.and_eq_true, beq_iff_eq, ih s, List.cons_append,
        List.cons.injEq]
      constructor
      · rintro ⟨rfl, t, rfl⟩; exact ⟨t, rfl, rfl⟩
      · rintro ⟨t, rfl, rfl⟩; exact ⟨rfl, t, rfl⟩

theorem isPrefixOf_append_self (A B : List Char) : A.isPrefixOf (A ++ B) = true :=
  (isPrefixOf_iff_exists A (A ++ B)).2 ⟨B, rfl⟩

theorem endsWithL_append (A B : List Char) : endsWithL (A ++ B) B = true := by
  unfold endsWithL
  rw [List.reverse_append]
  exact isPrefixOf_append_self B.reverse A.reverse

theorem endsWithL_iff_exists (s suf : List Char) :
    endsWithL s suf = true ↔ ∃ t, s = t ++ suf := by
  unfold endsWithL
  rw [isPrefixOf_iff_exists]
  constructor
  · rintro ⟨t, ht⟩
    refine ⟨t.reverse, ?_⟩
    have := congrArg List.reverse ht
    simpa using this
  · rintro ⟨t, rfl⟩
    exact ⟨t.reverse, by simp⟩

theorem getLast?_append_right (A B : List Char) (h : B ≠ []) :
    (A ++ B).getLast? = B.getLast? := by
  rw [← List.head?_reverse, ← List.head?_reverse, List.reverse_append]
  cases hB : B.reverse with
  | nil => exact absurd (by simpa using hB) h
  | cons b bs => simp [hB]

theorem endsWithL_false_of_getLast (s suf : List Char) (a b : Char)
    (hs : s.getLast? = some a) (hsuf : suf.getLast? = some b) (hne : a ≠ b) :
    endsWithL s suf = false := by
  by_contra h
  have h' : endsWithL s suf = true := by
    cases hx : endsWithL s suf
    · exact absurd hx h
    · rfl
  obtain ⟨t, rfl⟩ := (endsWithL_iff_exists _ _).1 h'
  have hsufne : suf ≠ [] := by
    intro hc; rw [hc] at hsuf; simp at hsuf
  rw [getLast?_append_right t suf hsufne, hsuf] at hs
  exact hne (by injection hs with h; exact h.symm)

theorem contains_iff_mem (s : List Char) (c : Char) : s.contains c = true ↔ c ∈ s :=
  List.elem_iff

/-! ## Decimal printing inverts decimal parsing -/

theorem charDigitVal_digitChar (d : Nat) (h : d < 10) :
    charDigitVal (digitChar d) = some d := by
  interval_cases d <;> rfl

theorem digitChar_isDigit (d : Nat) (h : d < 10) : (digitChar d).isDigit = true := by
  interval_cases d <;> rfl

theorem digitsValAux_append (A B : List Char) :
    ∀ acc, digitsValAux (A ++ B) acc =
      match digitsValAux A acc with
      | some a => digitsValAux B a
      | none => none := by
  induction A with
  | nil => intro acc; rfl
  | cons c cs ih =>
    intro acc
    simp only [List.cons_append, digitsValAux]
    cases charDigitVal c with
    | none => rfl
    | some d => exact ih (acc * 10 + d)

theorem natToCharsAux_zero (fuel : Nat) : natToCharsAux fuel 0 = [] := by
  cases fuel <;> rfl

theorem natToCharsAux_spec :
    ∀ fuel n acc, 0 < n → n ≤ fuel →
      digitsValAux (natToCharsAux fuel n) acc =
        some (acc * 10 ^ (natToCharsAux fuel n).length + n) := by
  intro fuel
  induction fuel with
  | zero => intro n acc hn hf; omega
  | succ f ih =>
    intro n acc hn hf
    cases n with
    | zero => omega
    | succ m =>
      have hunf : natToCharsAux (f + 1) (m + 1) =
          natToCharsAux f ((m + 1) / 10) ++ [digitChar ((m + 1) % 10)] := rfl
      have hmod : (m + 1) % 10 < 10 := Nat.mod_lt _ (by omega)
      rw [hunf]
      by_cases hq : (m + 1) / 10 = 0
      · have hlt : m + 1 < 10 := by omega
        rw [hq, natToCharsAux_zero, List.nil_append]
        simp only [digitsValAux, charDigitVal_digitChar _ hmod, List.length_cons,
          List.length_nil]
        rw [Nat.mod_eq_of_lt hlt, pow_one]
      · have hqpos : 0 < (m + 1) / 10 := Nat.pos_of_ne_zero hq
        have hqle : (m + 1) / 10 ≤ f := by
          have := Nat.div_lt_self (by omega : 0 < m + 1) (by omega : 1 < 10)
          omega
        rw [digitsValAux_append, ih _ acc hqpos hqle]
        simp only [digitsValAux, charDigitVal_digitChar _ hmod, List.length_append,
          List.length_cons, List.length_nil]
        rw [pow_succ]
        have key : ∀ X q r : Nat, 10 * q + r = m + 1 →
            (acc * X + q) * 10 + r = acc * (X * 10) + (m + 1) := by
          intro X q r hqr
          rw [← hqr]
          ring
        exact congrArg some (key _ _ _ (Nat.div_add_mod (m + 1) 10))

theorem natToCharsAux_ne_nil (fuel n : Nat) (hn : 0 < n) (hf : n ≤ fuel) :
    natToCharsAux fuel n ≠ [] := by
  cases fuel with
  | zero => omega
  | succ f =>
    cases n with
    | zero => omega
    | succ m => simp [natToCharsAux]

theorem digitsVal_natToChars (n : Nat) : digitsVal (natToChars n) = some n := by
  by_cases h : n = 0
  · subst h; rfl
  · have hn : 0 < n := Nat.pos_of_ne_zero h
    rw [natToChars, if_neg h, digitsVal,
      if_neg (natToCharsAux_ne_nil n n hn le_rfl),
      natToCharsAux_spec n n 0 hn le_rfl]
    simp

theorem natToChars_all_digits (n : Nat) : ∀ c ∈ natToChars n, c.isDigit = true := by
  rw [natToChars]
  split
  · intro c hc
    simp only [List.mem_singleton] at hc
    subst hc; rfl
  · suffices h : ∀ fuel m, ∀ c ∈ natToCharsAux fuel m, c.isDigit = true from h n n
    intro fuel
    induction fuel with
    | zero => intro m c hc; simp [natToCharsAux] at hc
    | succ f ih =>
      intro m c hc
      cases m with
      | zero => simp [natToCharsAux] at hc
      | succ k =>
        simp only [natToCharsAux, List.mem_append, List.mem_singleton] at hc
        rcases hc with hc | hc
        · exact ih _ c hc
        · subst hc; exact digitChar_isDigit _ (Nat.mod_lt _ (by omega))

theorem natToChars_ne_nil (n : Nat) : natToChars n ≠ [] := by
  rw [natToChars]
  split
  · simp
  · exact natToCharsAux_ne_nil n n (Nat.pos_of_ne_zero (by assumption)) le_rfl

/-- A decimal digit character is none of the separator/structure
characters and is not whitespace. -/
theorem isDigit_ne (c : Char) (h : c.isDigit = true) :
    c ≠ ',' ∧ c ≠ ';' ∧ c ≠ '=' ∧ c ≠ '(' ∧ c ≠ ')' ∧ c ≠ '"' ∧ c ≠ '?' ∧
    c ≠ '+' ∧ c ≠ '-' ∧ c ≠ ':' ∧ pyIsSpace c = false := by
  refine ⟨?_, ?_, ?_, ?_, ?_, ?_, ?_, ?_, ?_, ?_, ?_⟩
  all_goals try (intro hc; subst hc; exact absurd h (by decide))
  cases hx : pyIsSpace c
  · rfl
  · exfalso
    simp only [pyIsSpace, Bool.or_eq_true, decide_eq_true_eq] at hx
    rcases hx with ((((h1 | h1) | h1) | h1) | h1) | h1 <;>
      (subst h1; exact absurd h (by decide))

theorem intToChars_chars (i : Int) : ∀ c ∈ intToChars i, c.isDigit = true ∨ c = '-' := by
  rw [intToChars]
  split
  · intro c hc
    rcases List.mem_cons.1 hc with hc | hc
    · exact Or.inr hc
    · exact Or.inl (natToChars_all_digits _ c hc)
  · intro c hc
    exact Or.inl (natToChars_all_digits _ c hc)

theorem intToChars_ne_nil (i : Int) : intToChars i ≠ [] := by
  rw [intToChars]
  split
  · simp
  · exact natToChars_ne_nil _

theorem intToChars_head (i : Int) :
    ∃ a, (intToChars i).head? = some a ∧ (a.isDigit = true ∨ a = '-') := by
  cases hx : (intToChars i).head? with
  | none => exact absurd (List.head?_eq_none_iff.1 hx) (intToChars_ne_nil i)
  | some a =>
    exact ⟨a, rfl, intToChars_chars i a (List.mem_of_mem_head? hx)⟩

theorem intToChars_last (i : Int) :
    ∃ a, (intToChars i).getLast? = some a ∧ a.isDigit = true := by
  rw [intToChars]
  have hlast : ∀ n : Nat, ∃ a, (natToChars n).getLast? = some a ∧ a.isDigit = true := by
    intro n
    cases hx : (natToChars n).getLast? with
    | none => exact absurd (List.getLast?_eq_none_iff.1 hx) (natToChars_ne_nil n)
    | some a =>
      exact ⟨a, rfl, natToChars_all_digits n a (List.mem_of_mem_getLast? hx)⟩
  split
  · obtain ⟨a, ha, hd⟩ := hlast (i.natAbs)
    refine ⟨a, ?_, hd⟩
    show (['-'] ++ natToChars i.natAbs).getLast? = some a
    rw [getLast?_append_right _ _ (natToChars_ne_nil _), ha]
  · exact hlast _

theorem pyStrip_intToChars (i : Int) : pyStrip (intToChars i) = intToChars i := by
  apply pyStripGen_eq_self_of_all
  intro c hc
  rcases intToChars_chars i c hc with hd | hd
  · exact (isDigit_ne c hd).2.2.2.2.2.2.2.2.2.2
  · subst hd; rfl

theorem pyParseInt_intToChars (i : Int) : pyParseInt (intToChars i) = some i := by
  rw [pyParseInt]
  simp only [pyStrip_intToChars]
  by_cases hneg : i < 0
  · rw [intToChars, if_pos hneg]
    rw [if_neg (by simp), if_pos (by simp)]
    simp only [List.tail_cons, digitsVal_natToChars]
    show some (-(i.natAbs : Int)) = some i
    rw [Int.ofNat_natAbs_of_nonpos (le_of_lt hneg), neg_neg]
  · rw [intToChars, if_neg hneg]
    have hhead : ∃ a, (natToChars i.toNat).head? = some a ∧ a.isDigit = true := by
      cases hx : (natToChars i.toNat).head? with
      | none => exact absurd (List.head?_eq_none_iff.1 hx) (natToChars_ne_nil _)
      | some a =>
        exact ⟨a, rfl, natToChars_all_digits _ a (List.mem_of_mem_head? hx)⟩
    obtain ⟨a, ha, hd⟩ := hhead
    have h1 : ¬((natToChars i.toNat).head? = some '+') := by
      rw [ha]
      intro hc
      exact (isDigit_ne a hd).2.2.2.2.2.2.2.1 (Option.some.inj hc)
    have h2 : ¬((natToChars i.toNat).head? = some '-') := by
      rw [ha]
      intro hc
      exact (isDigit_ne a hd).2.2.2.2.2.2.2.2.1 (Option.some.inj hc)
    rw [if_neg h1, if_neg h2, digitsVal_natToChars]
    simp [Int.toNat_of_nonneg (le_of_not_lt hneg)]

/-! ## Generic step lemmas for the `_parse_params` loop -/

/-- A comma-token whose stripped form starts with `'('` while an array is
already open makes `_parse_params` raise the nested-array `ATError`. -/
theorem parseParamsLoop_nested_error (ts : List (List Char)) (res : List Param)
    (arr : Option (List Atom)) (t : List Char)
    (hhead : (pyStrip t).head? = some '(') (harr : arr.isSome = true) :
    parseParamsLoop (t :: ts) res arr = .error (.atError "Nested array encountered") := by
  simp only [parseParamsLoop, hhead, harr, and_self, if_pos]

/-- A comma-token whose stripped form ends with `')'` while **no** array is
open does not fail: the parsed value is appended to the top-level result
and then Python `None` (the `array` variable) is appended after it. -/
theorem parseParamsLoop_unmatched_close (ts : List (List Char)) (res : List Param)
    (t : List Char) (hne : ¬(pyStrip t).head? = some '(')
    (hcl : (pyStrip t).getLast? = some ')') :
    parseParamsLoop (t :: ts) res none =
      parseParamsLoop ts
        (res ++ [Param.atom (parse_param (pyStrip t).dropLast), Param.atom Atom.null])
        none := by
  simp only [parseParamsLoop, hne, hcl, Option.isSome_none, Bool.false_eq_true, and_false,
    if_false, if_neg hne, if_pos]

/-! ## Claim C3 — nested arrays -/

/-- C3 counterexample: `"((1,2))"` is a doubly-nested array input in the
textual sense, yet decode does **not** fail: only one leading `'('` is
stripped per comma-token, so the inner `'('` survives as string content
and the input decodes to one array of the strings `"(1"` and `"2)"`. -/
theorem c3_counterexample :
    parse_string (toL "+FOO: ((1,2))") =
      .ok (.rsp ⟨some (toL "+FOO"), false,
        [.arr [.str (toL "(1"), .str (toL "2)")]]⟩) ∧
    parse_params (toL "((1,2))") =
      .ok [.arr [.str (toL "(1"), .str (toL "2)")]] := by
  constructor
  · decide
  · decide

/-- C3 (amended): the nested-array `ATError` fires exactly when a
comma-separated token (after trimming) starts with `'('` while an array is
already open — e.g. the parameter text `"(1,(2,3))"` fails — while an
opening parenthesis immediately inside another (same token, e.g.
`"((1,2))"`) is not detected; singly-nested arrays such as
`"+CLCK: (\"SC\")"` decode to `[["SC"]]`. -/
theorem c3_nested_array (ts : List (List Char)) (res : List Param)
    (arr : Option (List Atom)) (t : List Char)
    (hhead : (pyStrip t).head? = some '(') (harr : arr.isSome = true) :
    parseParamsLoop (t :: ts) res arr = .error (.atError "Nested array encountered") ∧
    parse_params (toL "(1,(2,3))") = .error (.atError "Nested array encountered") ∧
    parse_string (toL "+CLCK: (\"SC\")") =
      .ok (.rsp ⟨some (toL "+CLCK"), false, [.arr [.str (toL "SC")]]⟩) := by
  refine ⟨parseParamsLoop_nested_error ts res arr t hhead harr, by decide, by decide⟩

/-- C3 witness: the generic token rule applied at the second token of
`"(1,(2,3))"`, where the array opened by `"(1"` is still open. -/
theorem c3_nested_array_witness :
    parseParamsLoop [toL "(2", toL "3)"] [] (some [Atom.int 1]) =
      .error (.atError "Nested array encountered") :=
  (c3_nested_array [toL "3)"] [] (some [Atom.int 1]) (toL "(2") (by decide) (by decide)).1

/-! ## Claim C10 — unmatched closing parenthesis -/

/-- C10: a token that ends with `')'` while no array is open does not make
decode fail: the `')'` is stripped, the token's parsed value is appended to
the top-level params, and then a `Null` (Python `None`, the `array`
variable) is appended right after it; concretely
`"1,2)"` parses to `[1, 2, None]`. -/
theorem c10_unmatched_close (ts : List (List Char)) (res : List Param)
    (t : List Char) (hne : ¬(pyStrip t).head? = some '(')
    (hcl : (pyStrip t).getLast? = some ')') :
    parseParamsLoop (t :: ts) res none =
      parseParamsLoop ts
        (res ++ [Param.atom (parse_param (pyStrip t).dropLast), Param.atom Atom.null])
        none ∧
    parse_params (toL "1,2)") =
      .ok [.atom (.int 1), .atom (.int 2), .atom .null] := by
  exact ⟨parseParamsLoop_unmatched_close ts res t hne hcl, by decide⟩

/-- C10 witness: the rule applied at the token `"2)"` of `"1,2)"`. -/
theorem c10_unmatched_close_witness :
    parseParamsLoop [toL "2)"] [Param.atom (Atom.int 1)] none =
      parseParamsLoop []
        ([Param.atom (Atom.int 1)] ++
          [Param.atom (parse_param (pyStrip (toL "2)")).dropLast), Param.atom Atom.null])
        none :=
  (c10_unmatched_close [] [Param.atom (Atom.int 1)] (toL "2)") (by decide) (by decide)).1

/-! ## Claim C5 — sentinel lines -/

/-- C5: a line whose stripped, upper-cased form is exactly `OK` (resp.
`ERROR`) decodes to the terminal response with empty params and
`error = false` (resp. `true`); a line whose normalized form merely starts
with a sentinel but has trailing characters fails with the corresponding
"Unexpected trailing data" `ATError`. -/
theorem c5_sentinels (s : List Char) (hs : s ≠ []) :
    (pyUpper (pyStrip s) = toL "OK" →
      parse_string s = .ok (.rsp ⟨some (toL "OK"), false, []⟩)) ∧
    (pyUpper (pyStrip s) = toL "ERROR" →
      parse_string s = .ok (.rsp ⟨some (toL "ERROR"), true, []⟩)) ∧
    ((toL "OK").isPrefixOf (pyUpper (pyStrip s)) = true →
      pyUpper (pyStrip s) ≠ toL "OK" →
      parse_string s = .error (.atError "Unexpected trailing data after OK")) ∧
    ((toL "ERROR").isPrefixOf (pyUpper (pyStrip s)) = true →
      pyUpper (pyStrip s) ≠ toL "ERROR" →
      parse_string s = .error (.atError "Unexpected trailing data after ERROR")) := by
  refine ⟨?_, ?_, ?_, ?_⟩
  · intro h
    simp only [parse_string, if_neg hs, h]
    rw [if_pos (by decide : ((toL "OK").isPrefixOf (toL "OK")) = true),
      if_neg (by decide : ¬((toL "OK").length ≠ 2))]
  · intro h
    simp only [parse_string, if_neg hs, h]
    rw [if_neg (by decide : ¬(((toL "OK").isPrefixOf (toL "ERROR")) = true)),
      if_pos (by decide : ((toL "ERROR").isPrefixOf (toL "ERROR")) = true),
      if_neg (by decide : ¬((toL "ERROR").length ≠ 5))]
  · intro hpre hne
    obtain ⟨t, ht⟩ := (isPrefixOf_iff_exists _ _).1 hpre
    have htne : t ≠ [] := by
      intro hc; rw [hc] at ht; simp at ht; exact hne ht
    have hlen : (pyUpper (pyStrip s)).length ≠ 2 := by
      rw [ht, List.length_append, (by decide : (toL "OK").length = 2)]
      have : (0 : Nat) < t.length := List.length_pos.2 htne
      omega
    simp only [parse_string, if_neg hs, hpre, if_pos, if_true]
    rw [if_pos hlen]
  · intro hpre hne
    have hOKfalse : (toL "OK").isPrefixOf (pyUpper (pyStrip s)) = false := by
      obtain ⟨t, ht⟩ := (isPrefixOf_iff_exists _ _).1 hpre
      rw [ht]
      cases hx : (toL "OK").isPrefixOf (toL "ERROR" ++ t)
      · rfl
      · obtain ⟨u, hu⟩ := (isPrefixOf_iff_exists _ _).1 hx
        exact absurd hu (by simp [toL])
    obtain ⟨t, ht⟩ := (isPrefixOf_iff_exists _ _).1 hpre
    have htne : t ≠ [] := by
      intro hc; rw [hc] at ht; simp at ht; exact hne ht
    have hlen : (pyUpper (pyStrip s)).length ≠ 5 := by
      rw [ht, List.length_append, (by decide : (toL "ERROR").length = 5)]
      have : (0 : Nat) < t.length := List.length_pos.2 htne
      omega
    simp only [parse_string, if_neg hs, hOKfalse, Bool.false_eq_true, if_false, hpre,
      if_pos, if_true]
    rw [if_pos hlen]

/-- C5 witness: the sentinel rules applied at `" ok "` (whitespace and
case are normalized away before the exact-match test). -/
theorem c5_sentinels_witness :
    parse_string (toL " ok ") = .ok (.rsp ⟨some (toL "OK"), false, []⟩) :=
  (c5_sentinels (toL " ok ") (by decide)).1 (by decide)

/-! ## Claim C2 — response lines with a colon -/

/-- C2 counterexample: for a `'+'`-line holding more than one `':'`,
the unpacking `response, params = cmd_str.split(':')` raises a
`ValueError`, not the library's `ATError`; and the label of `" +FOO: 1"`
keeps its leading whitespace (it is not trimmed). -/
theorem c2_counterexample :
    parse_string (toL "+CCLK: \"21/03/01,12:00:00\"") =
      .error (.pyError "too many values to unpack") ∧
    parse_string (toL " +FOO: 1") =
      .ok (.rsp ⟨some (toL " +FOO"), false, [.atom (.int 1)]⟩) ∧
    toL " +FOO" ≠ toL "+FOO" := by
  refine ⟨by decide, by decide, by decide⟩

/-- C2 (amended): a non-sentinel line whose normalized form starts with
`'+'` or `'%'` is split at **every** `':'`; with exactly one `':'` in the
raw line, the label is the *untrimmed* text left of it and the params are
the parameter-list parse of the right side (`error` true iff the label
contains the substring `ERROR`); with zero or two-or-more `':'` the
two-variable unpacking raises a `ValueError` (not an `ATError`). -/
theorem c2_colon_split (s : List Char) (hs : s ≠ [])
    (hOK : (toL "OK").isPrefixOf (pyUpper (pyStrip s)) = false)
    (hERR : (toL "ERROR").isPrefixOf (pyUpper (pyStrip s)) = false)
    (hpm : (pyUpper (pyStrip s)).head? = some '+' ∨
           (pyUpper (pyStrip s)).head? = some '%') :
    (∀ l r, splitCh ':' s = [l, r] →
      parse_string s =
        (parse_params r).map (fun ps => .rsp ⟨some l, isSubstrOf (toL "ERROR") l, ps⟩)) ∧
    ((splitCh ':' s).length ≠ 2 →
      parse_string s = .error (.pyError (unpackMsg (splitCh ':' s).length))) := by
  constructor
  · intro l r hsplit
    simp only [parse_string, if_neg hs, hOK, hERR, Bool.false_eq_true, if_false,
      if_pos hpm, hsplit]
    cases parse_params r with
    | error e => rfl
    | ok ps => rfl
  · intro hlen
    simp only [parse_string, if_neg hs, hOK, hERR, Bool.false_eq_true, if_false,
      if_pos hpm]
    rcases hL : splitCh ':' s with _ | ⟨a, _ | ⟨b, _ | ⟨c, rest⟩⟩⟩
    · rfl
    · rfl
    · rw [hL] at hlen; simp at hlen
    · rfl

/-- C2 witness: the one-colon rule at `"+CME ERROR: 513"` (the label holds
the substring `ERROR`, so the response is marked as an error). -/
theorem c2_colon_split_witness :
    parse_string (toL "+CME ERROR: 513") =
      (parse_params (toL " 513")).map
        (fun ps => .rsp ⟨some (toL "+CME ERROR"), isSubstrOf (toL "ERROR") (toL "+CME ERROR"), ps⟩) :=
  (c2_colon_split (toL "+CME ERROR: 513") (by decide) (by decide) (by decide)
    (by decide)).1 (toL "+CME ERROR") (toL " 513") (by decide)

/-! ## Claim C9 — free-text fallthrough -/

/-- C9 counterexample: `str.strip('"\r\n')` strips the character set from
**both** ends, so the leading quote of `"\"AB\"\r\n"` is removed as well —
the claim's "rest of the content, including any leading quote characters,
is preserved unchanged" is false. -/
theorem c9_counterexample :
    parse_string (toL "\"AB\"\x0d\n") =
      .ok (.rsp ⟨none, false, [.atom (.str (toL "AB"))]⟩) ∧
    parse_string (toL "\"AB\"\x0d\n") ≠
      .ok (.rsp ⟨none, false, [.atom (.str (toL "\"AB"))]⟩) := by
  refine ⟨by decide, by decide⟩

/-- C9 (amended): a line matching no earlier rule decodes to a free-text
response with `label = None`, `error = false` and a single string param
equal to the line content after two cleanups: a line that strips (as
whitespace) to exactly one `'"'` becomes empty content, and a line ending
in `'"'`+CRLF has **all leading and trailing** characters of the set
`{'"', CR, LF}` stripped from both ends (not just the trailing
sequence). -/
theorem c9_freetext (s : List Char) (hs : s ≠ [])
    (hOK : (toL "OK").isPrefixOf (pyUpper (pyStrip s)) = false)
    (hERR : (toL "ERROR").isPrefixOf (pyUpper (pyStrip s)) = false)
    (hpm : ¬((pyUpper (pyStrip s)).head? = some '+' ∨
             (pyUpper (pyStrip s)).head? = some '%'))
    (hT : endsWithL s (toL "=?") = false)
    (hR : endsWithL s (toL "?") = false)
    (hAT : (toL "AT").isPrefixOf (pyUpper (pyStrip s)) = false) :
    parse_string s = .ok (.rsp ⟨none, false,
      [.atom (.str (if pyStrip s = ['"'] then [] else
        if endsWithL s (toL "\"\x0d\n") = true then pyStripSet (toL "\"\x0d\n") s
        else s))]⟩) := by
  simp only [parse_string, if_neg hs, hOK, hERR, Bool.false_eq_true, if_false,
    if_neg hpm, hT, hR, hAT]

/-- C9 witness: the fallthrough rule applied at the free-text line
`"FOO BAR"`. -/
theorem c9_freetext_witness :
    parse_string (toL "FOO BAR") = .ok (.rsp ⟨none, false,
      [.atom (.str (if pyStrip (toL "FOO BAR") = ['"'] then [] else
        if endsWithL (toL "FOO BAR") (toL "\"\x0d\n") = true then
          pyStripSet (toL "\"\x0d\n") (toL "FOO BAR")
        else toL "FOO BAR"))]⟩) :=
  c9_freetext (toL "FOO BAR") (by decide) (by decide) (by decide) (by decide)
    (by decide) (by decide) (by decide)

/-! ## Claim C1 — round-trip counterexample -/

/-- C1 counterexample: `"AT+FOO=ABC"` is well-formed for the grammar
subset (bare token, rule "otherwise attempt integer parse, on failure keep
as Text") and contains no arrays and no quotes, yet encoding its decode
re-quotes the text param: `encode(decode("AT+FOO=ABC")) = "AT+FOO=\"ABC\""
≠ "AT+FOO=ABC"`. -/
theorem c1_counterexample :
    parse_string (toL "AT+FOO=ABC") =
      .ok (.cmd ⟨toL "+FOO", .SET, [.atom (.str (toL "ABC"))]⟩) ∧
    encode_command [⟨toL "+FOO", .SET, [.atom (.str (toL "ABC"))]⟩] =
      toL "AT+FOO=\"ABC\"" ∧
    toL "AT+FOO=\"ABC\"" ≠ toL "AT+FOO=ABC" := by
  refine ⟨by decide, by decide, by decide⟩

/-! ## Claim C4 — timeout behaviour of `send_cmd` -/

/-- C4: on an open session whose inbound stream yields only non-terminal
response lines before the read budget runs out, `send_cmd` accumulates
exactly those intermediate responses in arrival order — but then fails
with `queue.Empty` raised by `Queue.get(block, timeout_s)`, **not** with
the session layer's own timeout error: the
`ChatError('Command timed out ...')` branch is only reachable for a falsy
line, which the background thread never enqueues.  (Evidence for the C4
code bug: the code's intended timeout error is dead.) -/
theorem c4_timeout_queue_empty :
    send_cmd ⟨false, false, [], []⟩ (.ofStr (toL "AT+CEREG?"))
        [.line (toL "+CEREG: 2"), .line (toL "+CEREG: 1")] =
      (.error .queueEmpty, ⟨false, false, [], [toL "AT+CEREG?"]⟩) ∧
    (sendCmdLoop [.line (toL "+CEREG: 2"), .line (toL "+CEREG: 1")] []).2.1 =
      [⟨some (toL "+CEREG"), false, [.atom (.int 2)]⟩,
       ⟨some (toL "+CEREG"), false, [.atom (.int 1)]⟩] ∧
    (Except.error ChatErr.queueEmpty :
        Except ChatErr (RspDict × List RspDict)) ≠
      .error (.chatError "Command timed out") := by
  refine ⟨by decide, by decide, by decide⟩

/-! ## Claim C6 — faults funneled through the inbound queue -/

/-- C6: a transport fault in the background loop is pushed onto the
inbound queue as a data item (after the lines already queued, in order),
the loop stops (outcomes after the fault are never processed), the port is
released and the thread is marked closed; on the consumer side `_read`
explicitly distinguishes the two item shapes — a queued line is returned,
a queued fault is re-raised wrapped as `ChatError(str(item))`. -/
theorem c6_fault_as_data :
    (∀ (pre : List (List Char)) (f : Fault) (post : List IterOutcome),
      runThread none (pre.map IterOutcome.ok ++ IterOutcome.err f :: post) =
        ⟨((pre.filter keepLine).map RxItem.line) ++ [.exc f], true, true⟩) ∧
    (∀ (f : Fault) (rest : List RxItem) (tx : List (List Char)),
      chatRead ⟨false, false, RxItem.exc f :: rest, tx⟩ none =
        (.error (.chatError (faultMsg f)), ⟨false, false, rest, tx⟩)) ∧
    (∀ (s : List Char) (rest : List RxItem) (tx : List (List Char)),
      chatRead ⟨false, false, RxItem.line s :: rest, tx⟩ none =
        (.ok s, ⟨false, false, rest, tx⟩)) := by
  refine ⟨?_, ?_, ?_⟩
  · intro pre f post
    have key : ∀ (pre : List (List Char)) (q : List RxItem),
        runLoop (pre.map IterOutcome.ok ++ IterOutcome.err f :: post) q =
          q ++ ((pre.filter keepLine).map RxItem.line) ++ [.exc f] := by
      intro pre
      induction pre with
      | nil => intro q; simp [runLoop]
      | cons l pre ih =>
        intro q
        cases hl : keepLine l with
        | true =>
          simp only [List.map_cons, List.cons_append, runLoop, if_pos hl, List.append_eq]
          rw [ih (q ++ [RxItem.line l])]
          simp [List.filter_cons, hl]
        | false =>
          simp only [List.map_cons, List.cons_append, runLoop, hl, Bool.false_eq_true,
            if_false, List.append_eq]
          rw [ih q]
          simp [List.filter_cons, hl]
    show (⟨runLoop (pre.map IterOutcome.ok ++ IterOutcome.err f :: post) [], true, true⟩ :
        ThreadFinal) = _
    rw [key pre []]
    simp
  · intro f rest tx; rfl
  · intro s rest tx; rfl

/-! ## Claim C7 — failure to acquire the transport -/

/-- C7 counterexample: the serial port is opened inside `ChatThread.run`
(line 159), not in `Chat.__init__`; when the device path is absent the
constructor still returns successfully and the background thread **has**
started (it catches the fault, queues it, and dies) — refuting "open fails
synchronously with SessionError ... no background activity starts". -/
theorem c7_counterexample :
    chatInit (some .fileNotFound) [] =
      .ok ⟨true, ⟨false, true, [.exc .fileNotFound], []⟩⟩ := by
  decide

/-- C7 (amended): when the transport cannot be acquired, the constructor
nevertheless succeeds and the background thread starts; the thread catches
the acquisition fault, pushes it onto the inbound queue as data, and
terminates; the failure surfaces on the next read (or write), which
re-raises the captured fault verbatim via `_raise_thread_errors`. -/
theorem c7_async_fault (f : Fault) (events : List IterOutcome) :
    chatInit (some f) events = .ok ⟨true, ⟨false, true, [.exc f], []⟩⟩ ∧
    chatRead ⟨false, true, [.exc f], []⟩ none =
      (.error (.raisedFault f), ⟨false, true, [], []⟩) := by
  exact ⟨rfl, rfl⟩

/-! ## Claim C8 — closed sessions are permanently closed -/

/-- C8: every operation on an already-closed session fails immediately
with the corresponding `ChatError` and leaves the state untouched — in
particular `send_cmd` refuses before writing anything to the outbound
queue, and a second `close()` raises `ChatError("Port is already
closed.")`; `close()` on an open session is the only transition and it is
one-way (no operation ever clears the closed flag). -/
theorem c8_closed_permanent :
    (∀ (st : ChatState) (cmd : CmdInput) (sched : List RxItem), st.closed = true →
      send_cmd st cmd sched = (.error (.chatError "Port is closed."), st)) ∧
    (∀ st : ChatState, st.closed = true →
      chatClose st = (.error (.chatError "Port is already closed."), st)) ∧
    (∀ st : ChatState, st.closed = false →
      chatClose st = (.ok (), { st with closed := true, threadClosed := true })) ∧
    (∀ (st : ChatState) (arrival : Option RxItem), st.closed = true →
      chatRead st arrival = (.error (.chatError "Port is closed."), st)) ∧
    (∀ (st : ChatState) (s : List Char), st.closed = true →
      chatWrite st s = (.error (.chatError "Port is closed."), st)) := by
  refine ⟨?_, ?_, ?_, ?_, ?_⟩
  · intro st cmd sched h; simp [send_cmd, h]
  · intro st h; simp [chatClose, h]
  · intro st h; simp [chatClose, h]
  · intro st arrival h; simp [chatRead, h]
  · intro st s h; simp [chatWrite, h]

/-- C8 witness: double close — the first `close()` succeeds and flips the
state to closed, the second raises; `send_cmd` on the closed state refuses
with the untouched state. -/
theorem c8_closed_permanent_witness :
    chatClose ⟨false, false, [], []⟩ = (.ok (), ⟨true, true, [], []⟩) ∧
    chatClose ⟨true, true, [], []⟩ =
      (.error (.chatError "Port is already closed."), ⟨true, true, [], []⟩) ∧
    send_cmd ⟨true, true, [], []⟩ (.ofStr (toL "AT")) [] =
      (.error (.chatError "Port is closed."), ⟨true, true, [], []⟩) :=
  ⟨c8_closed_permanent.2.2.1 ⟨false, false, [], []⟩ rfl,
   c8_closed_permanent.2.1 ⟨true, true, [], []⟩ rfl,
   c8_closed_permanent.1 ⟨true, true, [], []⟩ (.ofStr (toL "AT")) [] rfl⟩

end ATSpec

namespace ATSpec

/-! ## Claim C1 machinery: encoded atoms and arrays parse back -/

theorem contains_eq_false (s : List Char) (c : Char) (h : c ∉ s) :
    s.contains c = false := by
  cases hx : s.contains c
  · rfl
  · exact absurd ((contains_iff_mem s c).1 hx) h

theorem head?_append_left (A B : List Char) (h : A ≠ []) :
    (A ++ B).head? = A.head? := by
  cases A with
  | nil => exact absurd rfl h
  | cons a A => rfl

theorem getLast?_concat (A : List Char) (x : Char) : (A ++ [x]).getLast? = some x := by
  rw [getLast?_append_right A [x] (by simp)]
  rfl

theorem pyStripSet_quotes (s : List Char) (h : '"' ∉ s) :
    pyStripSet ['"'] ('"' :: s ++ ['"']) = s := by
  have hp : ∀ c ∈ s, (['"'] : List Char).contains c = false := by
    intro c hc
    refine contains_eq_false _ _ ?_
    intro hmem
    simp only [List.mem_singleton] at hmem
    exact h (hmem ▸ hc)
  unfold pyStripSet pyStripGen
  rw [List.cons_append, List.dropWhile_cons]
  rw [if_pos (by decide : ((['"'] : List Char).contains '"') = true)]
  cases s with
  | nil => decide
  | cons c s' =>
    rw [List.cons_append,
      dropWhile_cons_of_neg _ _ _ (hp c (List.mem_cons_self c s'))]
    unfold dropTrailing
    have hall : ∀ a ∈ s'.reverse ++ [c], (['"'] : List Char).contains a = false := by
      intro a ha
      rcases List.mem_append.1 ha with ha | ha
      · exact hp a (List.mem_cons_of_mem c (List.mem_reverse.1 ha))
      · simp only [List.mem_singleton] at ha
        exact ha ▸ hp c (List.mem_cons_self c s')
    rw [List.reverse_cons, List.reverse_append,
      (by decide : (['"'] : List Char).reverse = ['"']), List.append_assoc,
      List.singleton_append, List.dropWhile_cons,
      if_pos (by decide : ((['"'] : List Char).contains '"') = true),
      dropWhile_eq_self_of_all _ _ hall]
    simp

theorem pyStrip_quoted (s : List Char) :
    pyStrip ('"' :: s ++ ['"']) = '"' :: s ++ ['"'] := by
  apply pyStripGen_eq_self
  · intro a ha
    simp only [List.cons_append, List.head?_cons, Option.some.injEq] at ha
    subst ha; rfl
  · intro a ha
    rw [getLast?_concat] at ha
    injection ha with ha
    subst ha; rfl

theorem parse_param_int (i : Int) : parse_param (intToChars i) = .int i := by
  rw [parse_param, if_neg (intToChars_ne_nil i)]
  obtain ⟨a, ha, had⟩ := intToChars_head i
  have hq : ¬(intToChars i).head? = some '"' := by
    rw [ha]
    intro hc
    have ha' := Option.some.inj hc
    rcases had with hd | hd
    · exact (isDigit_ne a hd).2.2.2.2.2.1 ha'
    · rw [hd] at ha'; exact absurd ha' (by decide)
  rw [if_neg hq, pyParseInt_intToChars]

theorem parse_param_quoted (s : List Char) (h : '"' ∉ s) :
    parse_param ('"' :: s ++ ['"']) = .str s := by
  rw [parse_param, if_neg (by simp), if_pos (by simp), pyStripSet_quotes s h]

/-- Every `ArrAtom` is a `CanonAtom`. -/
theorem arrAtom_canon (x : Atom) (hx : ArrAtom x) : CanonAtom x := by
  cases x with
  | null => exact absurd hx (by simp [ArrAtom])
  | int i => trivial
  | str s => exact hx

/-- The facts needed to push one encoded array element through the
`_parse_params` loop: the encoding strips to itself, opens no array,
closes no array, and parses back to the element. -/
theorem arrAtom_facts (x : Atom) (hx : ArrAtom x) :
    pyStrip (encode_param x) = encode_param x ∧
    (∃ a, (encode_param x).head? = some a ∧ a ≠ '(' ∧ pyIsSpace a = false) ∧
    (∃ b, (encode_param x).getLast? = some b ∧ b ≠ ')' ∧ pyIsSpace b = false) ∧
    parse_param (encode_param x) = x := by
  cases x with
  | null => exact absurd hx (by simp [ArrAtom])
  | int i =>
    obtain ⟨a, ha, had⟩ := intToChars_head i
    obtain ⟨b, hb, hbd⟩ := intToChars_last i
    refine ⟨pyStrip_intToChars i, ⟨a, ha, ?_, ?_⟩, ⟨b, hb,
      (isDigit_ne b hbd).2.2.2.2.1, (isDigit_ne b hbd).2.2.2.2.2.2.2.2.2.2⟩,
      parse_param_int i⟩
    · rcases had with hd | hd
      · exact (isDigit_ne a hd).2.2.2.1
      · rw [hd]; decide
    · rcases had with hd | hd
      · exact (isDigit_ne a hd).2.2.2.2.2.2.2.2.2.2
      · rw [hd]; rfl
  | str s =>
    have hq : '"' ∉ s := fun hmem => ((hx '"' hmem).1 rfl)
    refine ⟨pyStrip_quoted s, ⟨'"', rfl, by decide, by decide⟩,
      ⟨'"', ?_, by decide, by decide⟩, parse_param_quoted s hq⟩
    exact getLast?_concat ('"' :: s) '"'

end ATSpec

namespace ATSpec

/-! ## Claim C1 machinery: pushing encoded tokens through the loop -/

/-- One top-level scalar token: appended as-is to the result. -/
theorem loop_atom (a : Atom) (ha : CanonAtom a) (ts : List (List Char))
    (res : List Param) :
    parseParamsLoop (encode_param a :: ts) res none =
      parseParamsLoop ts (res ++ [Param.atom a]) none := by
  cases a with
  | null =>
    have h1 : pyStrip (encode_param Atom.null) = [] := by decide
    simp [parseParamsLoop, h1, parse_param]
  | int i =>
    obtain ⟨hstrip, ⟨a, hah, hane, _⟩, ⟨b, hbl, hbne, _⟩, hparse⟩ :=
      arrAtom_facts (Atom.int i) (by trivial)
    have hno : ¬(encode_param (Atom.int i)).head? = some '(' := by
      rw [hah]
      intro hc
      exact hane (Option.some.inj hc)
    have hnc : ¬(encode_param (Atom.int i)).getLast? = some ')' := by
      rw [hbl]
      intro hc
      exact hbne (Option.some.inj hc)
    simp [parseParamsLoop, hno, hnc, hstrip, hparse]
  | str s =>
    obtain ⟨hstrip, ⟨a, hah, hane, _⟩, ⟨b, hbl, hbne, _⟩, hparse⟩ :=
      arrAtom_facts (Atom.str s) ha
    have hno : ¬(encode_param (Atom.str s)).head? = some '(' := by
      rw [hah]
      intro hc
      exact hane (Option.some.inj hc)
    have hnc : ¬(encode_param (Atom.str s)).getLast? = some ')' := by
      rw [hbl]
      intro hc
      exact hbne (Option.some.inj hc)
    simp [parseParamsLoop, hno, hnc, hstrip, hparse]

/-- Middle/last tokens of an encoded array with the array open: the
elements accumulate and the closing token appends the array. -/
theorem loop_arr_mid :
    ∀ xs : List Atom, xs ≠ [] → (∀ x ∈ xs, ArrAtom x) →
    ∀ (acc : List Atom) (ts : List (List Char)) (res : List Param),
      parseParamsLoop (arrMidToks xs ++ ts) res (some acc) =
        parseParamsLoop ts (res ++ [Param.arr (acc ++ xs)]) none := by
  intro xs
  induction xs with
  | nil => intro h; exact absurd rfl h
  | cons x xs ih =>
    intro _ hall acc ts res
    obtain ⟨hstrip, ⟨a, hah, hane, hanws⟩, ⟨b, hbl, hbne, hbnws⟩, hparse⟩ :=
      arrAtom_facts x (hall x (List.mem_cons_self x xs))
    have henc : encode_param x ≠ [] := by
      intro hc; rw [hc] at hah; exact Option.noConfusion hah
    cases xs with
    | nil =>
      show parseParamsLoop ((encode_param x ++ [')']) :: ts) res (some acc) = _
      have hstrip2 : pyStrip (encode_param x ++ [')']) = encode_param x ++ [')'] := by
        apply pyStripGen_eq_self
        · intro c hc
          rw [head?_append_left _ _ henc, hah] at hc
          injection hc with hc
          subst hc; exact hanws
        · intro c hc
          rw [getLast?_concat] at hc
          injection hc with hc
          subst hc; rfl
      have hno : ¬(encode_param x ++ [')']).head? = some '(' := by
        rw [head?_append_left _ _ henc, hah]
        intro hc
        exact hane (Option.some.inj hc)
      have hcl : (encode_param x ++ [')']).getLast? = some ')' := getLast?_concat _ _
      have hdrop : (encode_param x ++ [')']).dropLast = encode_param x :=
        List.dropLast_concat ..
      simp [parseParamsLoop, hstrip2, hno, hcl, hdrop, hparse, hah, hane, hbl, hbne]
    | cons y ys =>
      show parseParamsLoop (encode_param x :: (arrMidToks (y :: ys) ++ ts)) res (some acc) = _
      have hno : ¬(encode_param x).head? = some '(' := by
        rw [hah]
        intro hc
        exact hane (Option.some.inj hc)
      have hnc : ¬(encode_param x).getLast? = some ')' := by
        rw [hbl]
        intro hc
        exact hbne (Option.some.inj hc)
      have hstep : parseParamsLoop (encode_param x :: (arrMidToks (y :: ys) ++ ts)) res (some acc) =
          parseParamsLoop (arrMidToks (y :: ys) ++ ts) res (some (acc ++ [x])) := by
        simp [parseParamsLoop, hno, hnc, hstrip, hparse, hah, hane, hbl, hbne]
      rw [hstep, ih (by simp) (fun z hz => hall z (List.mem_cons_of_mem x hz)) (acc ++ [x]) ts res]
      simp

/-- A whole encoded array's tokens: the array value is appended. -/
theorem loop_arr (xs : List Atom) (hne : xs ≠ []) (hall : ∀ x ∈ xs, ArrAtom x)
    (ts : List (List Char)) (res : List Param) :
    parseParamsLoop (arrToks xs ++ ts) res none =
      parseParamsLoop ts (res ++ [Param.arr xs]) none := by
  cases xs with
  | nil => exact absurd rfl hne
  | cons x xs =>
    obtain ⟨hstrip, ⟨a, hah, hane, hanws⟩, ⟨b, hbl, hbne, hbnws⟩, hparse⟩ :=
      arrAtom_facts x (hall x (List.mem_cons_self x xs))
    have henc : encode_param x ≠ [] := by
      intro hc; rw [hc] at hah; exact Option.noConfusion hah
    cases xs with
    | nil =>
      show parseParamsLoop (('(' :: (encode_param x ++ [')'])) :: ts) res none = _
      have hgl : ('(' :: (encode_param x ++ [')'])).getLast? = some ')' :=
        getLast?_concat ('(' :: encode_param x) ')'
      have hstrip2 : pyStrip ('(' :: (encode_param x ++ [')'])) =
          '(' :: (encode_param x ++ [')']) := by
        apply pyStripGen_eq_self
        · intro c hc
          injection hc with hc
          subst hc; rfl
        · intro c hc
          rw [hgl] at hc
          injection hc with hc
          subst hc; rfl
      have hcl : (encode_param x ++ [')']).getLast? = some ')' := getLast?_concat _ _
      have hdrop : (encode_param x ++ [')']).dropLast = encode_param x :=
        List.dropLast_concat ..
      simp [parseParamsLoop, hstrip2, hcl, hdrop, hparse, hah, hane, hbl, hbne]
    | cons y ys =>
      show parseParamsLoop (('(' :: encode_param x) :: (arrMidToks (y :: ys) ++ ts)) res none = _
      have hgl : ('(' :: encode_param x).getLast? = some b := by
        have := getLast?_append_right ['('] (encode_param x) henc
        rw [hbl] at this
        exact this
      have hstrip2 : pyStrip ('(' :: encode_param x) = '(' :: encode_param x := by
        apply pyStripGen_eq_self
        · intro c hc
          injection hc with hc
          subst hc; rfl
        · intro c hc
          rw [hgl] at hc
          injection hc with hc
          subst hc; exact hbnws
      have hstep : parseParamsLoop (('(' :: encode_param x) :: (arrMidToks (y :: ys) ++ ts)) res none =
          parseParamsLoop (arrMidToks (y :: ys) ++ ts) res (some [x]) := by
        simp [parseParamsLoop, hstrip2, hparse, hah, hane, hbl, hbne, hgl]
      rw [hstep,
        loop_arr_mid (y :: ys) (by simp) (fun z hz => hall z (List.mem_cons_of_mem x hz)) [x] ts res]
      simp

/-- One canonical parameter's tokens: the parameter is appended. -/
theorem loop_param (p : Param) (hp : CanonParam p) (ts : List (List Char))
    (res : List Param) :
    parseParamsLoop (paramToks p ++ ts) res none =
      parseParamsLoop ts (res ++ [p]) none := by
  cases p with
  | atom a => exact loop_atom a hp ts res
  | arr xs => exact loop_arr xs hp.1 hp.2 ts res

/-- The token stream of a canonical parameter list: all parameters are
appended in order. -/
theorem loop_params (ps : List Param) (hp : ∀ p ∈ ps, CanonParam p) :
    ∀ (ts : List (List Char)) (res : List Param),
      parseParamsLoop ((ps.map paramToks).flatten ++ ts) res none =
        parseParamsLoop ts (res ++ ps) none := by
  induction ps with
  | nil => intro ts res; simp
  | cons p ps ih =>
    intro ts res
    have h1 : ((p :: ps).map paramToks).flatten = paramToks p ++ (ps.map paramToks).flatten := by
      simp
    rw [h1, List.append_assoc, loop_param p (hp p (List.mem_cons_self p ps)),
      ih (fun q hq => hp q (List.mem_cons_of_mem p hq))]
    simp

end ATSpec

namespace ATSpec

/-! ## Claim C1 machinery: the split of an encoded parameter list is
exactly the token stream -/

theorem interL_append (sep : List Char) :
    ∀ A B : List (List Char), A ≠ [] → B ≠ [] →
      interL sep (A ++ B) = interL sep A ++ sep ++ interL sep B := by
  intro A
  induction A with
  | nil => intro B h; exact absurd rfl h
  | cons a A ih =>
    intro B _ hB
    cases A with
    | nil =>
      rw [List.singleton_append, interL_cons sep a B hB]
      rfl
    | cons a2 A' =>
      rw [List.cons_append, interL_cons sep a ((a2 :: A') ++ B) (by simp),
        ih B (by simp) hB, interL_cons sep a (a2 :: A') (by simp)]
      simp [List.append_assoc]

theorem flatten_ne_nil (tss : List (List (List Char))) (h1 : tss ≠ [])
    (h2 : ∀ ts ∈ tss, ts ≠ []) : tss.flatten ≠ [] := by
  cases tss with
  | nil => exact absurd rfl h1
  | cons ts tss' =>
    have hts := h2 ts (List.mem_cons_self ts tss')
    cases ts with
    | nil => exact absurd rfl hts
    | cons t ts0 => simp

theorem interL_flatten (sep : List Char) :
    ∀ tss : List (List (List Char)), (∀ ts ∈ tss, ts ≠ []) →
      interL sep tss.flatten = interL sep (tss.map (interL sep)) := by
  intro tss
  induction tss with
  | nil => intro _; rfl
  | cons ts tss' ih =>
    intro h
    cases tss' with
    | nil => simp [interL]
    | cons ts2 r =>
      have hts : ts ≠ [] := h ts (List.mem_cons_self ts _)
      have hrest : ((ts2 :: r) : List (List (List Char))).flatten ≠ [] :=
        flatten_ne_nil _ (by simp) (fun u hu => h u (List.mem_cons_of_mem ts hu))
      rw [show ((ts :: ts2 :: r) : List (List (List Char))).flatten =
          ts ++ (ts2 :: r).flatten by simp,
        interL_append sep ts _ hts hrest,
        ih (fun u hu => h u (List.mem_cons_of_mem ts hu))]
      simp only [List.map_cons]
      rfl

theorem arrMidToks_ne_nil (xs : List Atom) (h : xs ≠ []) : arrMidToks xs ≠ [] := by
  cases xs with
  | nil => exact absurd rfl h
  | cons x xs => cases xs <;> simp [arrMidToks]

theorem paramToks_ne_nil (p : Param) : paramToks p ≠ [] := by
  cases p with
  | atom a => simp [paramToks]
  | arr xs =>
    cases xs with
    | nil => simp [paramToks, arrToks]
    | cons x xs => cases xs <;> simp [paramToks, arrToks, arrMidToks_ne_nil]

theorem interL_arrMidToks :
    ∀ ys : List Atom, ys ≠ [] →
      interL [','] (arrMidToks ys) = interL [','] (ys.map encode_param) ++ [')'] := by
  intro ys
  induction ys with
  | nil => intro h; exact absurd rfl h
  | cons y ys ih =>
    intro _
    cases ys with
    | nil => rfl
    | cons z r =>
      show interL [','] (encode_param y :: arrMidToks (z :: r)) = _
      rw [interL_cons [','] (encode_param y) (arrMidToks (z :: r))
          (arrMidToks_ne_nil _ (by simp)),
        ih (by simp)]
      simp only [List.map_cons, interL]
      simp [List.append_assoc]

theorem interL_paramToks (p : Param) :
    interL [','] (paramToks p) = encodeParamPiece p := by
  cases p with
  | atom a => rfl
  | arr xs =>
    cases xs with
    | nil => rfl
    | cons x ys =>
      cases ys with
      | nil => rfl
      | cons y r =>
        show interL [','] (('(' :: encode_param x) :: arrMidToks (y :: r)) = _
        rw [interL_cons [','] ('(' :: encode_param x) (arrMidToks (y :: r))
            (arrMidToks_ne_nil _ (by simp)),
          interL_arrMidToks (y :: r) (by simp)]
        show _ = ('(' :: interL [','] ((x :: y :: r).map encode_param)) ++ [')']
        simp only [List.map_cons, interL]
        simp [List.append_assoc]

theorem encode_params_toks (ps : List Param) :
    encode_params ps = interL [','] ((ps.map paramToks).flatten) := by
  rw [encode_params, interL_flatten [','] (ps.map paramToks)
    (fun ts hts => by
      obtain ⟨p, _, rfl⟩ := List.mem_map.1 hts
      exact paramToks_ne_nil p),
    List.map_map]
  congr 1
  exact (List.map_congr_left (fun p _ => (interL_paramToks p).symm))

theorem encode_param_no_comma (a : Atom) (ha : CanonAtom a) : ',' ∉ encode_param a := by
  cases a with
  | null => simp [encode_param]
  | int i =>
    intro hmem
    rcases intToChars_chars i ',' hmem with hd | hd
    · exact (isDigit_ne ',' hd).1 rfl
    · exact absurd hd (by decide)
  | str s =>
    intro hmem
    show False
    rcases List.mem_append.1 hmem with hm | hm
    · rcases List.mem_cons.1 hm with hm | hm
      · exact absurd hm (by decide)
      · exact (ha ',' hm).2.1 rfl
    · simp only [List.mem_singleton] at hm
      exact absurd hm (by decide)

theorem paramToks_no_comma (p : Param) (hp : CanonParam p) :
    ∀ t ∈ paramToks p, ',' ∉ t := by
  cases p with
  | atom a =>
    intro t ht
    simp only [paramToks, List.mem_singleton] at ht
    subst ht
    exact encode_param_no_comma a hp
  | arr xs =>
    have hmid : ∀ ys : List Atom, (∀ x ∈ ys, ArrAtom x) →
        ∀ t ∈ arrMidToks ys, ',' ∉ t := by
      intro ys
      induction ys with
      | nil => intro _ t ht; simp [arrMidToks] at ht
      | cons y ys ih =>
        intro hall t ht
        have hy : ',' ∉ encode_param y :=
          encode_param_no_comma y (arrAtom_canon y (hall y (List.mem_cons_self y ys)))
        cases ys with
        | nil =>
          simp only [arrMidToks, List.mem_singleton] at ht
          subst ht
          intro hmem
          rcases List.mem_append.1 hmem with hm | hm
          · exact hy hm
          · simp only [List.mem_singleton] at hm
            exact absurd hm (by decide)
        | cons z r =>
          rcases List.mem_cons.1 ht with ht | ht
          · subst ht; exact hy
          · exact ih (fun u hu => hall u (List.mem_cons_of_mem y hu)) t ht
    intro t ht
    rcases hp with ⟨hne, hall⟩
    cases xs with
    | nil => exact absurd rfl hne
    | cons x ys =>
      have hx : ',' ∉ encode_param x :=
        encode_param_no_comma x (arrAtom_canon x (hall x (List.mem_cons_self x ys)))
      cases ys with
      | nil =>
        simp only [paramToks, arrToks, List.mem_singleton] at ht
        subst ht
        intro hmem
        rcases List.mem_cons.1 hmem with hm | hm
        · exact absurd hm (by decide)
        · rcases List.mem_append.1 hm with hm2 | hm2
          · exact hx hm2
          · simp only [List.mem_singleton] at hm2
            exact absurd hm2 (by decide)
      | cons y r =>
        rcases List.mem_cons.1 ht with ht | ht
        · subst ht
          intro hmem
          rcases List.mem_cons.1 hmem with hm | hm
          · exact absurd hm (by decide)
          · exact hx hm
        · exact hmid (y :: r) (fun u hu => hall u (List.mem_cons_of_mem x hu)) t ht

theorem split_encode_params (ps : List Param) (hne : ps ≠ [])
    (hp : ∀ p ∈ ps, CanonParam p) :
    splitCh ',' (encode_params ps) = (ps.map paramToks).flatten := by
  rw [encode_params_toks]
  apply splitCh_interL
  · exact flatten_ne_nil _ (by
      cases ps with
      | nil => exact absurd rfl hne
      | cons p ps' => simp)
      (fun ts hts => by
        obtain ⟨p, _, rfl⟩ := List.mem_map.1 hts
        exact paramToks_ne_nil p)
  · intro t ht
    obtain ⟨ts, hts, htt⟩ := List.mem_flatten.1 ht
    obtain ⟨p, hpp, rfl⟩ := List.mem_map.1 hts
    exact paramToks_no_comma p (hp p hpp) t htt

theorem parse_params_encode (ps : List Param) (hne : ps ≠ [])
    (hp : ∀ p ∈ ps, CanonParam p) :
    parse_params (encode_params ps) = .ok ps := by
  rw [parse_params, split_encode_params ps hne hp]
  have := loop_params ps hp [] []
  simpa using this

end ATSpec

namespace ATSpec

/-! ## Claim C1 machinery: statements -/

theorem mem_interL (sep : List Char) :
    ∀ (ts : List (List Char)) (c : Char), c ∈ interL sep ts →
      c ∈ sep ∨ ∃ t ∈ ts, c ∈ t := by
  intro ts
  induction ts with
  | nil => intro c hc; simp [interL] at hc
  | cons t ts ih =>
    intro c hc
    cases ts with
    | nil =>
      right
      exact ⟨t, List.mem_cons_self t [], hc⟩
    | cons t2 r =>
      rw [interL_cons sep t (t2 :: r) (by simp)] at hc
      rcases List.mem_append.1 hc with hm | hm
      · rcases List.mem_append.1 hm with hm2 | hm2
        · exact Or.inr ⟨t, List.mem_cons_self t _, hm2⟩
        · exact Or.inl hm2
      · rcases ih c hm with h | ⟨u, hu, hcu⟩
        · exact Or.inl h
        · exact Or.inr ⟨u, List.mem_cons_of_mem t hu, hcu⟩

theorem encode_param_not_sep (a : Atom) (ha : CanonAtom a) :
    ∀ c ∈ encode_param a, c ≠ ';' ∧ c ≠ '=' := by
  cases a with
  | null =>
    intro c hc
    simp only [encode_param, List.mem_singleton] at hc
    subst hc
    exact ⟨by decide, by decide⟩
  | int i =>
    intro c hc
    rcases intToChars_chars i c hc with hd | hd
    · exact ⟨(isDigit_ne c hd).2.1, (isDigit_ne c hd).2.2.1⟩
    · subst hd; exact ⟨by decide, by decide⟩
  | str s =>
    intro c hc
    rcases List.mem_append.1 hc with hm | hm
    · rcases List.mem_cons.1 hm with hm | hm
      · subst hm; exact ⟨by decide, by decide⟩
      · exact ⟨(ha c hm).2.2.1, (ha c hm).2.2.2⟩
    · simp only [List.mem_singleton] at hm
      subst hm
      exact ⟨by decide, by decide⟩

theorem encodeParamPiece_not_sep (p : Param) (hp : CanonParam p) :
    ∀ c ∈ encodeParamPiece p, c ≠ ';' ∧ c ≠ '=' := by
  cases p with
  | atom a => exact encode_param_not_sep a hp
  | arr xs =>
    intro c hc
    show c ≠ ';' ∧ c ≠ '='
    rcases List.mem_append.1 hc with hm | hm
    · rcases List.mem_cons.1 hm with hm | hm
      · subst hm; exact ⟨by decide, by decide⟩
      · rcases mem_interL [','] (xs.map encode_param) c hm with h | ⟨t, ht, hct⟩
        · simp only [List.mem_singleton] at h
          subst h
          exact ⟨by decide, by decide⟩
        · obtain ⟨x, hx, rfl⟩ := List.mem_map.1 ht
          exact encode_param_not_sep x (arrAtom_canon x (hp.2 x hx)) c hct
    · simp only [List.mem_singleton] at hm
      subst hm
      exact ⟨by decide, by decide⟩

theorem encode_params_not_sep (ps : List Param) (hp : ∀ p ∈ ps, CanonParam p) :
    ∀ c ∈ encode_params ps, c ≠ ';' ∧ c ≠ '=' := by
  intro c hc
  rcases mem_interL [','] (ps.map encodeParamPiece) c hc with h | ⟨t, ht, hct⟩
  · simp only [List.mem_singleton] at h
    subst h
    exact ⟨by decide, by decide⟩
  · obtain ⟨p, hpp, rfl⟩ := List.mem_map.1 ht
    exact encodeParamPiece_not_sep p (hp p hpp) c hct

theorem canonName_not_mem (nm : List Char) (hnm : CanonName nm) :
    '=' ∉ nm ∧ ';' ∉ nm ∧ '?' ∉ nm := by
  refine ⟨fun h => ?_, fun h => ?_, fun h => ?_⟩
  · have := (hnm.2.2 '=' h).2.2
    simp at this
  · have := (hnm.2.2 ';' h).2.2
    simp at this
  · have := (hnm.2.2 '?' h).2.2
    simp at this

theorem lstripAT (nm : List Char) (hnm : CanonName nm) :
    pyLstripSet ['A', 'T'] nm = nm ∧ pyLstripSet ['A', 'T'] (toL "AT" ++ nm) = nm := by
  obtain ⟨hne, hhead, _⟩ := hnm
  cases nm with
  | nil => exact absurd rfl hne
  | cons c nm' =>
    have hc : (['A', 'T'] : List Char).contains c = false := by
      rcases hhead with hh | hh <;>
        (injection hh with hh; subst hh; decide)
    constructor
    · exact dropWhile_cons_of_neg _ c nm' hc
    · show List.dropWhile _ ('A' :: 'T' :: c :: nm') = c :: nm'
      rw [List.dropWhile_cons, if_pos (by decide : ((['A', 'T'] : List Char).contains 'A') = true),
        List.dropWhile_cons, if_pos (by decide : ((['A', 'T'] : List Char).contains 'T') = true),
        List.dropWhile_cons, if_neg (by rw [hc]; exact Bool.false_ne_true)]

theorem pyUpper_name (nm : List Char) (hnm : CanonName nm) : pyUpper nm = nm := by
  unfold pyUpper
  have h : ∀ c ∈ nm, c.toUpper = c := fun c hc => (hnm.2.2 c hc).1
  calc nm.map Char.toUpper = nm.map id := List.map_congr_left h
    _ = nm := List.map_id nm

/-- The statement text of an encoded canonical SET command parses back to
the command dict, with or without the leading `AT` of the first
statement. -/
theorem parse_stmt_encode (c : CmdDict) (hc : CanonSet c) (pre : List Char)
    (hpre : pre = [] ∨ pre = toL "AT") :
    parse_stmt (pre ++ encodeOne c) = .ok c := by
  obtain ⟨nm, ty, ps⟩ := c
  obtain ⟨hnm, hty, hps⟩ := hc
  simp only at hnm hty hps
  subst hty
  have hpre_nomem : '=' ∉ pre := by
    rcases hpre with h | h <;> (subst h; simp [toL])
  have hlstrip : pyLstripSet ['A', 'T'] (pre ++ nm) = nm := by
    rcases hpre with h | h
    · subst h; simpa using (lstripAT nm hnm).1
    · subst h; exact (lstripAT nm hnm).2
  by_cases hempty : ps = []
  · subst hempty
    show parse_stmt (pre ++ (nm ++ [])) = _
    rw [List.append_nil]
    have hcontains : (pre ++ nm).contains '=' = false := by
      apply contains_eq_false
      intro hmem
      rcases List.mem_append.1 hmem with h | h
      · exact hpre_nomem h
      · exact (canonName_not_mem nm hnm).1 h
    rw [parse_stmt, if_neg (by rw [hcontains]; exact Bool.false_ne_true), hlstrip]
  · have henc : encodeOne ⟨nm, .SET, ps⟩ = nm ++ ('=' :: encode_params ps) := by
      simp [encodeOne, hempty]
    rw [henc]
    have hsplit : splitCh '=' (pre ++ (nm ++ ('=' :: encode_params ps))) =
        [pre ++ nm, encode_params ps] := by
      rw [← List.append_assoc,
        splitCh_append_cons '=' (pre ++ nm) (encode_params ps) (by
          intro hmem
          rcases List.mem_append.1 hmem with h | h
          · exact hpre_nomem h
          · exact (canonName_not_mem nm hnm).1 h),
        splitCh_of_not_mem '=' (encode_params ps) (by
          intro hmem
          exact (encode_params_not_sep ps hps '=' hmem).2 rfl)]
    have hcontains : (pre ++ (nm ++ ('=' :: encode_params ps))).contains '=' = true :=
      (contains_iff_mem _ _).2 (by simp)
    rw [parse_stmt, if_pos hcontains, hsplit]
    simp only [parse_params_encode ps hempty hps, hlstrip]

theorem parseStmts_map (cs : List CmdDict) (h : ∀ c ∈ cs, CanonSet c) :
    parseStmts (cs.map encodeOne) = .ok cs := by
  induction cs with
  | nil => rfl
  | cons c cs ih =>
    have h1 : parse_stmt (encodeOne c) = .ok c := by
      have := parse_stmt_encode c (h c (List.mem_cons_self c cs)) [] (Or.inl rfl)
      simpa using this
    simp only [List.map_cons, parseStmts, h1,
      ih (fun d hd => h d (List.mem_cons_of_mem c hd))]

theorem parseStmts_full (c1 : CmdDict) (rest : List CmdDict) (hc1 : CanonSet c1)
    (hrest : ∀ c ∈ rest, CanonSet c) :
    parseStmts ((toL "AT" ++ encodeOne c1) :: rest.map encodeOne) = .ok (c1 :: rest) := by
  simp only [parseStmts, parse_stmt_encode c1 hc1 (toL "AT") (Or.inr rfl),
    parseStmts_map rest hrest]

end ATSpec

namespace ATSpec

/-! ## Claim C1 machinery: whole-line classification -/

theorem encodeParamPiece_ne_nil (p : Param) : encodeParamPiece p ≠ [] := by
  cases p with
  | atom a =>
    cases a with
    | null => simp [encodeParamPiece, encode_param]
    | int i =>
      show intToChars i ≠ []
      exact intToChars_ne_nil i
    | str s => simp [encodeParamPiece, encode_param]
  | arr xs => simp [encodeParamPiece]

theorem encode_params_ne_nil (ps : List Param) (h : ps ≠ []) :
    encode_params ps ≠ [] := by
  cases ps with
  | nil => exact absurd rfl h
  | cons p ps' =>
    cases ps' with
    | nil => exact encodeParamPiece_ne_nil p
    | cons q r =>
      show interL [','] (encodeParamPiece p :: encodeParamPiece q :: r.map encodeParamPiece) ≠ []
      rw [interL_cons [','] _ _ (by simp)]
      intro hc
      rcases List.append_eq_nil.1 hc with ⟨hc1, _⟩
      rcases List.append_eq_nil.1 hc1 with ⟨hc2, _⟩
      exact encodeParamPiece_ne_nil p hc2

theorem encodeOne_ne_nil (c : CmdDict) (h : c.cmd ≠ []) : encodeOne c ≠ [] := by
  intro hc
  rcases List.append_eq_nil.1 hc with ⟨h1, _⟩
  exact h h1

theorem interL_getLast (sep : List Char) :
    ∀ (ts : List (List Char)) (t : List Char), ts.getLast? = some t → t ≠ [] →
      (interL sep ts).getLast? = t.getLast? := by
  intro ts
  induction ts with
  | nil => intro t ht; simp at ht
  | cons t0 ts' ih =>
    intro t ht htne
    cases ts' with
    | nil =>
      simp only [List.getLast?_singleton, Option.some.injEq] at ht
      subst ht
      rfl
    | cons t1 r =>
      rw [List.getLast?_cons_cons] at ht
      have hrec := ih t ht htne
      obtain ⟨x, hx⟩ : ∃ x, t.getLast? = some x := by
        cases hg : t.getLast? with
        | none => exact absurd (List.getLast?_eq_none_iff.1 hg) htne
        | some x => exact ⟨x, rfl⟩
      have hinter_ne : interL sep (t1 :: r) ≠ [] := by
        intro hc
        rw [hc] at hrec
        rw [hx] at hrec
        simp at hrec
      rw [interL_cons sep t0 (t1 :: r) (by simp), List.append_assoc,
        getLast?_append_right t0 _ (by
          intro hc
          rcases List.append_eq_nil.1 hc with ⟨_, h2⟩
          exact hinter_ne h2),
        getLast?_append_right sep _ hinter_ne, hrec]

theorem getLast?_map_encodeOne (cs : List CmdDict) (c : CmdDict)
    (h : cs.getLast? = some c) : (cs.map encodeOne).getLast? = some (encodeOne c) := by
  induction cs with
  | nil => simp at h
  | cons c0 cs' ih =>
    cases cs' with
    | nil =>
      simp only [List.getLast?_singleton, Option.some.injEq] at h
      subst h
      rfl
    | cons c1 r =>
      rw [List.getLast?_cons_cons] at h
      rw [List.map_cons, List.map_cons, List.getLast?_cons_cons]
      exact ih h

theorem encodeParamPiece_last (p : Param) (hp : CanonParam p) :
    ∃ a, (encodeParamPiece p).getLast? = some a ∧ a ≠ '?' := by
  cases p with
  | atom a =>
    cases a with
    | null => exact ⟨' ', rfl, by decide⟩
    | int i =>
      obtain ⟨b, hb, hbd⟩ := intToChars_last i
      exact ⟨b, hb, (isDigit_ne b hbd).2.2.2.2.2.2.1⟩
    | str s =>
      exact ⟨'"', getLast?_concat ('"' :: s) '"', by decide⟩
  | arr xs =>
    exact ⟨')', getLast?_concat ('(' :: interL [','] (xs.map encode_param)) ')', by decide⟩

theorem getLast?_map_piece :
    ∀ (ps : List Param) (p : Param), ps.getLast? = some p →
      (ps.map encodeParamPiece).getLast? = some (encodeParamPiece p) := by
  intro ps
  induction ps with
  | nil => intro p h; simp at h
  | cons p0 ps' ih =>
    intro p h
    cases ps' with
    | nil =>
      simp only [List.getLast?_singleton, Option.some.injEq] at h
      subst h
      rfl
    | cons p1 r =>
      rw [List.getLast?_cons_cons] at h
      rw [List.map_cons, List.map_cons, List.getLast?_cons_cons]
      exact ih p h

theorem encode_params_last (ps : List Param) (hne : ps ≠ [])
    (hp : ∀ p ∈ ps, CanonParam p) :
    ∃ a, (encode_params ps).getLast? = some a ∧ a ≠ '?' := by
  obtain ⟨pl, hpl⟩ : ∃ pl, ps.getLast? = some pl := by
    cases hg : ps.getLast? with
    | none => exact absurd (List.getLast?_eq_none_iff.1 hg) hne
    | some pl => exact ⟨pl, rfl⟩
  have hplmem : pl ∈ ps := List.mem_of_mem_getLast? hpl
  obtain ⟨a, ha, hane⟩ := encodeParamPiece_last pl (hp pl hplmem)
  refine ⟨a, ?_, hane⟩
  rw [encode_params, interL_getLast [','] (ps.map encodeParamPiece)
    (encodeParamPiece pl) (getLast?_map_piece ps pl hpl) (encodeParamPiece_ne_nil pl), ha]

end ATSpec

namespace ATSpec

theorem encodeOne_last (c : CmdDict) (hc : CanonSet c) :
    ∃ a, (encodeOne c).getLast? = some a ∧ a ≠ '?' := by
  obtain ⟨nm, ty, ps⟩ := c
  obtain ⟨hnm, hty, hps⟩ := hc
  simp only at hnm hty hps
  subst hty
  by_cases hempty : ps = []
  · subst hempty
    show ∃ a, (nm ++ []).getLast? = some a ∧ a ≠ '?'
    rw [List.append_nil]
    obtain ⟨a, ha⟩ : ∃ a, nm.getLast? = some a := by
      cases hg : nm.getLast? with
      | none => exact absurd (List.getLast?_eq_none_iff.1 hg) hnm.1
      | some a => exact ⟨a, rfl⟩
    refine ⟨a, ha, ?_⟩
    have := (hnm.2.2 a (List.mem_of_mem_getLast? ha)).2.2
    simp only [List.mem_cons, List.mem_singleton] at this
    intro hcq
    exact this (Or.inr (Or.inl hcq))
  · have henc : encodeOne ⟨nm, .SET, ps⟩ = nm ++ ('=' :: encode_params ps) := by
      simp [encodeOne, hempty]
    rw [henc]
    obtain ⟨a, ha, hane⟩ := encode_params_last ps hempty hps
    refine ⟨a, ?_, hane⟩
    rw [getLast?_append_right nm _ (by simp),
      show ('=' :: encode_params ps) = ['='] ++ encode_params ps from rfl,
      getLast?_append_right ['='] _ (encode_params_ne_nil ps hempty), ha]

theorem encodeOne_no_semi (c : CmdDict) (hc : CanonSet c) : ';' ∉ encodeOne c := by
  obtain ⟨nm, ty, ps⟩ := c
  obtain ⟨hnm, hty, hps⟩ := hc
  simp only at hnm hty hps
  subst hty
  intro hmem
  rcases List.mem_append.1 hmem with h | h
  · exact (canonName_not_mem nm hnm).2.1 h
  · by_cases hempty : ps = []
    · subst hempty
      simp at h
    · simp only [if_neg hempty] at h
      rcases List.mem_cons.1 h with h2 | h2
      · exact absurd h2 (by decide)
      · exact (encode_params_not_sep ps hps ';' h2).1 rfl

theorem at_absorb (sep x : List Char) (xs : List (List Char)) :
    toL "AT" ++ interL sep (x :: xs) = interL sep ((toL "AT" ++ x) :: xs) := by
  cases xs with
  | nil => rfl
  | cons y ys =>
    rw [interL_cons sep x (y :: ys) (by simp),
      interL_cons sep (toL "AT" ++ x) (y :: ys) (by simp)]
    simp [List.append_assoc]

theorem classify_prefix (X : List Char) :
    (toL "OK").isPrefixOf ('A' :: 'T' :: X) = false ∧
    (toL "ERROR").isPrefixOf ('A' :: 'T' :: X) = false ∧
    (toL "AT").isPrefixOf ('A' :: 'T' :: X) = true ∧
    ¬(('A' :: 'T' :: X).head? = some '+' ∨ ('A' :: 'T' :: X).head? = some '%') := by
  refine ⟨?_, ?_, ?_, ?_⟩
  · show (['O', 'K'] : List Char).isPrefixOf ('A' :: 'T' :: X) = false
    simp [List.isPrefixOf, show (('O' : Char) == 'A') = false from by decide]
  · show (['E', 'R', 'R', 'O', 'R'] : List Char).isPrefixOf ('A' :: 'T' :: X) = false
    simp [List.isPrefixOf, show (('E' : Char) == 'A') = false from by decide]
  · show (['A', 'T'] : List Char).isPrefixOf ('A' :: 'T' :: X) = true
    simp [List.isPrefixOf]
  · rintro (h | h) <;> simp at h

theorem temp_shape (body : List Char) :
    pyUpper (pyStrip ('A' :: 'T' :: body)) =
      'A' :: 'T' :: pyUpper (dropTrailing pyIsSpace body) := by
  unfold pyStrip pyStripGen
  rw [dropWhile_cons_of_neg _ 'A' ('T' :: body) (by decide),
    dropTrailing_cons _ 'A' ('T' :: body) (by decide),
    dropTrailing_cons _ 'T' body (by decide)]
  show ('A' :: 'T' :: dropTrailing pyIsSpace body).map Char.toUpper = _
  rw [List.map_cons, List.map_cons]
  rfl

theorem lstripAT_gen (X : List Char) (hh : X.head? = some '+' ∨ X.head? = some '%') :
    pyLstripSet ['A', 'T'] ('A' :: 'T' :: X) = X := by
  cases X with
  | nil => simp at hh
  | cons c X' =>
    have hc : (['A', 'T'] : List Char).contains c = false := by
      rcases hh with h | h <;> (injection h with h; subst h; decide)
    show List.dropWhile _ ('A' :: 'T' :: c :: X') = c :: X'
    rw [List.dropWhile_cons, if_pos (by decide : ((['A', 'T'] : List Char).contains 'A') = true),
      List.dropWhile_cons, if_pos (by decide : ((['A', 'T'] : List Char).contains 'T') = true)]
    exact dropWhile_cons_of_neg _ c X' hc

theorem rstripEQ (nm : List Char) (hnm : CanonName nm) :
    pyRstripSet ['=', '?'] (nm ++ ['?']) = nm ∧
    pyRstripSet ['=', '?'] (nm ++ ['=', '?']) = nm := by
  have hlast : ∀ a ∈ nm.reverse ++ [], True := fun _ _ => trivial
  have hdw : nm.reverse.dropWhile (fun c => (['=', '?'] : List Char).contains c) = nm.reverse := by
    apply dropWhile_eq_self_of_head
    intro a ha
    rw [List.head?_reverse] at ha
    have := (hnm.2.2 a (List.mem_of_mem_getLast? ha)).2.2
    simp only [List.mem_cons, List.mem_singleton] at this
    apply contains_eq_false
    intro hmem
    rcases List.mem_cons.1 hmem with h | h
    · exact this (Or.inl h)
    · simp only [List.mem_singleton] at h
      exact this (Or.inr (Or.inl h))
  constructor
  · unfold pyRstripSet dropTrailing
    rw [List.reverse_append,
      show (['?'] : List Char).reverse = ['?'] from rfl, List.singleton_append,
      List.dropWhile_cons, if_pos (by decide : ((['=', '?'] : List Char).contains '?') = true),
      hdw, List.reverse_reverse]
  · unfold pyRstripSet dropTrailing
    rw [List.reverse_append,
      show (['=', '?'] : List Char).reverse = ['?', '='] from rfl]
    show (List.dropWhile _ ('?' :: '=' :: nm.reverse)).reverse = nm
    rw [List.dropWhile_cons, if_pos (by decide : ((['=', '?'] : List Char).contains '?') = true),
      List.dropWhile_cons, if_pos (by decide : ((['=', '?'] : List Char).contains '=') = true),
      hdw, List.reverse_reverse]

theorem append_singleton_inj (A B : List Char) (x y : Char)
    (h : A ++ [x] = B ++ [y]) : A = B ∧ x = y := by
  have h2 := congrArg List.reverse h
  simp only [List.reverse_append, List.reverse_cons, List.reverse_nil, List.nil_append,
    List.singleton_append] at h2
  injection h2 with hxy hAB
  exact ⟨List.reverse_injective hAB, hxy⟩

end ATSpec

namespace ATSpec

/-- Decoding an encoded list of canonical SET commands returns exactly the
list (a single dict for one command, the dict list for a compound). -/
theorem parse_string_encode_sets (c1 : CmdDict) (rest : List CmdDict)
    (hall : ∀ c ∈ (c1 :: rest), CanonSet c) :
    parse_string (encode_command (c1 :: rest)) =
      .ok (match rest with
        | [] => ParseResult.cmd c1
        | _ :: _ => ParseResult.cmds (c1 :: rest)) := by
  have hc1 := hall c1 (List.mem_cons_self c1 rest)
  have hrest : ∀ c ∈ rest, CanonSet c := fun c hc => hall c (List.mem_cons_of_mem c1 hc)
  have hs : encode_command (c1 :: rest) =
      'A' :: 'T' :: interL [';'] (encodeOne c1 :: rest.map encodeOne) := rfl
  rw [hs]
  have htemp := temp_shape (interL [';'] (encodeOne c1 :: rest.map encodeOne))
  obtain ⟨hOK, hERR, hAT, hpm⟩ :=
    classify_prefix (pyUpper (dropTrailing pyIsSpace
      (interL [';'] (encodeOne c1 :: rest.map encodeOne))))
  have hOK2 : (toL "OK").isPrefixOf
      (pyUpper (pyStrip ('A' :: 'T' :: interL [';'] (encodeOne c1 :: rest.map encodeOne)))) =
      false := by rw [htemp]; exact hOK
  have hERR2 : (toL "ERROR").isPrefixOf
      (pyUpper (pyStrip ('A' :: 'T' :: interL [';'] (encodeOne c1 :: rest.map encodeOne)))) =
      false := by rw [htemp]; exact hERR
  have hAT2 : (toL "AT").isPrefixOf
      (pyUpper (pyStrip ('A' :: 'T' :: interL [';'] (encodeOne c1 :: rest.map encodeOne)))) =
      true := by rw [htemp]; exact hAT
  have hpm2 : ¬((pyUpper (pyStrip ('A' :: 'T' :: interL [';']
      (encodeOne c1 :: rest.map encodeOne)))).head? = some '+' ∨
      (pyUpper (pyStrip ('A' :: 'T' :: interL [';']
        (encodeOne c1 :: rest.map encodeOne)))).head? = some '%') := by
    rw [htemp]; exact hpm
  obtain ⟨cl, hcl⟩ : ∃ cl, (c1 :: rest).getLast? = some cl := by
    cases hg : (c1 :: rest).getLast? with
    | none => exact absurd (List.getLast?_eq_none_iff.1 hg) (by simp)
    | some cl => exact ⟨cl, rfl⟩
  have hclcanon := hall cl (List.mem_of_mem_getLast? hcl)
  obtain ⟨a, halast, hane⟩ := encodeOne_last cl hclcanon
  have hmap2 : (encodeOne c1 :: rest.map encodeOne).getLast? = some (encodeOne cl) :=
    getLast?_map_encodeOne (c1 :: rest) cl hcl
  have hbody_last : (interL [';'] (encodeOne c1 :: rest.map encodeOne)).getLast? = some a := by
    rw [interL_getLast [';'] (encodeOne c1 :: rest.map encodeOne) (encodeOne cl) hmap2
      (encodeOne_ne_nil cl hclcanon.1.1), halast]
  have hbody_ne : interL [';'] (encodeOne c1 :: rest.map encodeOne) ≠ [] := by
    intro hc
    rw [hc] at hbody_last
    simp at hbody_last
  have hslast : ('A' :: 'T' :: interL [';'] (encodeOne c1 :: rest.map encodeOne)).getLast? =
      some a := by
    show ((['A', 'T'] : List Char) ++ _).getLast? = _
    rw [getLast?_append_right _ _ hbody_ne]
    exact hbody_last
  have hT : endsWithL ('A' :: 'T' :: interL [';'] (encodeOne c1 :: rest.map encodeOne))
      (toL "=?") = false :=
    endsWithL_false_of_getLast _ _ a '?' hslast (by decide) hane
  have hR : endsWithL ('A' :: 'T' :: interL [';'] (encodeOne c1 :: rest.map encodeOne))
      (toL "?") = false :=
    endsWithL_false_of_getLast _ _ a '?' hslast (by decide) hane
  have habs : ('A' :: 'T' :: interL [';'] (encodeOne c1 :: rest.map encodeOne)) =
      interL [';'] ((toL "AT" ++ encodeOne c1) :: rest.map encodeOne) :=
    at_absorb [';'] (encodeOne c1) (rest.map encodeOne)
  have hsplit : splitCh ';' ('A' :: 'T' :: interL [';'] (encodeOne c1 :: rest.map encodeOne)) =
      (toL "AT" ++ encodeOne c1) :: rest.map encodeOne := by
    rw [habs]
    apply splitCh_interL
    · simp
    · intro t ht
      rcases List.mem_cons.1 ht with h | h
      · subst h
        intro hmem
        rcases List.mem_append.1 hmem with h2 | h2
        · rcases List.mem_cons.1 h2 with h3 | h3
          · exact absurd h3 (by decide)
          · simp only [List.mem_singleton] at h3
            exact absurd h3 (by decide)
        · exact encodeOne_no_semi c1 hc1 h2
      · obtain ⟨c, hcmem, rfl⟩ := List.mem_map.1 h
        exact encodeOne_no_semi c (hrest c hcmem)
  have hstmts : parseStmts (splitCh ';'
      ('A' :: 'T' :: interL [';'] (encodeOne c1 :: rest.map encodeOne))) = .ok (c1 :: rest) := by
    rw [hsplit]
    exact parseStmts_full c1 rest hc1 hrest
  simp only [parse_string, if_neg (by simp : ¬('A' :: 'T' :: interL [';']
      (encodeOne c1 :: rest.map encodeOne) = [])),
    hOK2, hERR2, Bool.false_eq_true, if_false, if_neg hpm2, hT, hR, hAT2, if_true, hstmts]
  cases rest with
  | nil => rfl
  | cons r rs => rfl

end ATSpec

namespace ATSpec

/-- Decoding the encodings of canonical READ and TEST commands returns the
command dict (names are upper-cased by the branch; canonical names are
upper-case stable). -/
theorem parse_string_encode_rt (nm : List Char) (hnm : CanonName nm) :
    parse_string (encode_command [⟨nm, .READ, []⟩]) = .ok (.cmd ⟨nm, .READ, []⟩) ∧
    parse_string (encode_command [⟨nm, .TEST, []⟩]) = .ok (.cmd ⟨nm, .TEST, []⟩) := by
  obtain ⟨b, hb⟩ : ∃ b, nm.getLast? = some b := by
    cases hg : nm.getLast? with
    | none => exact absurd (List.getLast?_eq_none_iff.1 hg) hnm.1
    | some b => exact ⟨b, rfl⟩
  have hbchar := hnm.2.2 b (List.mem_of_mem_getLast? hb)
  have hATlast : ∀ X : List Char, X ≠ [] → ('A' :: 'T' :: X).getLast? = X.getLast? := by
    intro X hX
    show ((['A', 'T'] : List Char) ++ X).getLast? = X.getLast?
    exact getLast?_append_right _ _ hX
  constructor
  · -- READ: wire string is AT ++ name ++ "?"
    have hs : encode_command [⟨nm, .READ, []⟩] = 'A' :: 'T' :: (nm ++ ['?']) := rfl
    rw [hs]
    have htemp := temp_shape (nm ++ ['?'])
    obtain ⟨hOK, hERR, _, hpm⟩ :=
      classify_prefix (pyUpper (dropTrailing pyIsSpace (nm ++ ['?'])))
    have hOK2 : (toL "OK").isPrefixOf (pyUpper (pyStrip ('A' :: 'T' :: (nm ++ ['?'])))) =
        false := by rw [htemp]; exact hOK
    have hERR2 : (toL "ERROR").isPrefixOf (pyUpper (pyStrip ('A' :: 'T' :: (nm ++ ['?'])))) =
        false := by rw [htemp]; exact hERR
    have hpm2 : ¬((pyUpper (pyStrip ('A' :: 'T' :: (nm ++ ['?'])))).head? = some '+' ∨
        (pyUpper (pyStrip ('A' :: 'T' :: (nm ++ ['?'])))).head? = some '%') := by
      rw [htemp]; exact hpm
    have hT : endsWithL ('A' :: 'T' :: (nm ++ ['?'])) (toL "=?") = false := by
      cases hx : endsWithL ('A' :: 'T' :: (nm ++ ['?'])) (toL "=?")
      · rfl
      · exfalso
        obtain ⟨t, ht⟩ := (endsWithL_iff_exists _ _).1 hx
        have ht2 : (t ++ ['=']) ++ ['?'] = ('A' :: 'T' :: nm) ++ ['?'] := by
          rw [List.append_assoc]
          exact ht.symm
        obtain ⟨heq, _⟩ := append_singleton_inj _ _ _ _ ht2
        have hlast_eq : ('A' :: 'T' :: nm).getLast? = some '=' := by
          rw [← heq, getLast?_concat]
        rw [hATlast nm hnm.1, hb] at hlast_eq
        injection hlast_eq with hbe
        have := hbchar.2.2
        rw [hbe] at this
        simp at this
    have hR : endsWithL ('A' :: 'T' :: (nm ++ ['?'])) (toL "?") = true :=
      endsWithL_append ('A' :: 'T' :: nm) ['?']
    have hupper : pyUpper ('A' :: 'T' :: (nm ++ ['?'])) = 'A' :: 'T' :: (nm ++ ['?']) := by
      show ('A' :: 'T' :: (nm ++ ['?'])).map Char.toUpper = _
      rw [List.map_cons, List.map_cons, List.map_append,
        show List.map Char.toUpper nm = nm from pyUpper_name nm hnm]
      rfl
    have hlstrip : pyLstripSet ['A', 'T'] ('A' :: 'T' :: (nm ++ ['?'])) = nm ++ ['?'] := by
      apply lstripAT_gen
      rw [head?_append_left nm ['?'] hnm.1]
      exact hnm.2.1
    simp only [parse_string,
      if_neg (by simp : ¬('A' :: 'T' :: (nm ++ ['?'])) = []),
      hOK2, hERR2, Bool.false_eq_true, if_false, if_neg hpm2, hT, hR, if_true,
      hupper, hlstrip, (rstripEQ nm hnm).1]
  · -- TEST: wire string is AT ++ name ++ "=?"
    have hs : encode_command [⟨nm, .TEST, []⟩] = 'A' :: 'T' :: (nm ++ ['=', '?']) := rfl
    rw [hs]
    have htemp := temp_shape (nm ++ ['=', '?'])
    obtain ⟨hOK, hERR, _, hpm⟩ :=
      classify_prefix (pyUpper (dropTrailing pyIsSpace (nm ++ ['=', '?'])))
    have hOK2 : (toL "OK").isPrefixOf (pyUpper (pyStrip ('A' :: 'T' :: (nm ++ ['=', '?'])))) =
        false := by rw [htemp]; exact hOK
    have hERR2 : (toL "ERROR").isPrefixOf
        (pyUpper (pyStrip ('A' :: 'T' :: (nm ++ ['=', '?'])))) = false := by
      rw [htemp]; exact hERR
    have hpm2 : ¬((pyUpper (pyStrip ('A' :: 'T' :: (nm ++ ['=', '?'])))).head? = some '+' ∨
        (pyUpper (pyStrip ('A' :: 'T' :: (nm ++ ['=', '?'])))).head? = some '%') := by
      rw [htemp]; exact hpm
    have hT : endsWithL ('A' :: 'T' :: (nm ++ ['=', '?'])) (toL "=?") = true := by
      have : ('A' :: 'T' :: (nm ++ ['=', '?'])) = ('A' :: 'T' :: nm) ++ ['=', '?'] := by
        simp
      rw [this]
      exact endsWithL_append ('A' :: 'T' :: nm) ['=', '?']
    have hupper : pyUpper ('A' :: 'T' :: (nm ++ ['=', '?'])) =
        'A' :: 'T' :: (nm ++ ['=', '?']) := by
      show ('A' :: 'T' :: (nm ++ ['=', '?'])).map Char.toUpper = _
      rw [List.map_cons, List.map_cons, List.map_append,
        show List.map Char.toUpper nm = nm from pyUpper_name nm hnm]
      rfl
    have hlstrip : pyLstripSet ['A', 'T'] ('A' :: 'T' :: (nm ++ ['=', '?'])) =
        nm ++ ['=', '?'] := by
      apply lstripAT_gen
      rw [head?_append_left nm ['=', '?'] hnm.1]
      exact hnm.2.1
    simp only [parse_string,
      if_neg (by simp : ¬('A' :: 'T' :: (nm ++ ['=', '?'])) = []),
      hOK2, hERR2, Bool.false_eq_true, if_false, if_neg hpm2, hT, if_true,
      hupper, hlstrip, (rstripEQ nm hnm).2]

end ATSpec

namespace ATSpec

/-- C1 (amended): the round-trip law holds on the canonical subset — the
image of `encode_command` on canonical command values.  Decoding the
encoding of any canonical single command (or list of ≥ 2 canonical SET
commands) returns exactly those values, hence `encode(decode(s)) = s` for
every such wire string `s`; in particular `"AT+CEMODE=0"` decodes to
`{cmd: "+CEMODE", SET, [0]}` and that value encodes back to
`"AT+CEMODE=0"`.  (As stated over *all* well-formed strings the law is
false: see the counterexample.) -/
theorem c1_round_trip :
    (∀ c : CmdDict, CanonSingle c →
      parse_string (encode_command [c]) = .ok (.cmd c)) ∧
    (∀ cs : List CmdDict, 2 ≤ cs.length → (∀ c ∈ cs, CanonSet c) →
      parse_string (encode_command cs) = .ok (.cmds cs)) ∧
    parse_string (toL "AT+CEMODE=0") =
      .ok (.cmd ⟨toL "+CEMODE", .SET, [.atom (.int 0)]⟩) ∧
    encode_command [⟨toL "+CEMODE", .SET, [.atom (.int 0)]⟩] = toL "AT+CEMODE=0" := by
  refine ⟨?_, ?_, by decide, by decide⟩
  · intro c hc
    obtain ⟨hnm, hrest⟩ := hc
    rcases hrest with ⟨hty, hps⟩ | ⟨hty, hps⟩
    · exact parse_string_encode_sets c [] (by
        intro d hd
        rcases List.mem_cons.1 hd with h | h
        · subst h; exact ⟨hnm, hty, hps⟩
        · simp at h)
    · obtain ⟨nm, ty, ps⟩ := c
      simp only at hnm hps hty
      subst hps
      rcases hty with h | h
      · subst h
        exact (parse_string_encode_rt nm hnm).1
      · subst h
        exact (parse_string_encode_rt nm hnm).2
  · intro cs hlen hall
    rcases cs with _ | ⟨c1, _ | ⟨c2, r⟩⟩
    · simp at hlen
    · simp at hlen
    · exact parse_string_encode_sets c1 (c2 :: r) hall

/-- C1 witness: the canonical round trip applied at the concrete SET
command `{cmd: "+CEMODE", SET, [0]}`. -/
theorem c1_round_trip_witness :
    parse_string (encode_command [⟨toL "+CEMODE", .SET, [.atom (.int 0)]⟩]) =
      .ok (.cmd ⟨toL "+CEMODE", .SET, [.atom (.int 0)]⟩) :=
  c1_round_trip.1 ⟨toL "+CEMODE", .SET, [.atom (.int 0)]⟩
    ⟨by decide, Or.inl ⟨rfl, by
      intro p hp
      simp only [List.mem_singleton] at hp
      subst hp
      trivial⟩⟩

end ATSpec
